import Mathlib

/-!
# A verification development for the `wyag.rs` storage engine

This file gives a shallow embedding, in Lean 4, of the core of the `wyag.rs`
content-addressable object store (the `gitrs` crate): the object codec
(`src/object.rs`), the KVLM codec (`src/kvlm.rs`), the tree codec
(`src/object/tree.rs`), the name resolver (`GitrsObject::find/resolve`), the
reference store (`src/refs.rs`), the index codec (`src/index.rs`) and the
ignore matcher (`src/ignore.rs`), together with theorems settling the frozen
specification claims about those components.

Modelling conventions, used consistently below:

* Rust `Vec<u8>`, `&[u8]`, `String` and `&str` values are all modelled as
  `List Nat` of byte values (`Bytes`).  Rust `String` byte-slicing panics on
  a non-UTF-8 char boundary; the model slices byte-wise.  The only slicing
  panic relevant to the claims is the out-of-bounds panic (index beyond the
  byte length), which the model does track explicitly.
* Functions that can panic are modelled with `Option` (`none` = panic) or
  with the `ROut` outcome type, which distinguishes a returned error
  (`anyhow::Result::Err`) from a panic.
* zlib compression is modelled by the identity function: the only property
  of `flate2` the code relies on is that decoding inverts encoding.
* `SystemTime` is modelled as a signed number of whole seconds relative to
  the Unix epoch (`Int`); the claims about times are stated at whole-second
  precision.
* The filesystem under the repository metadata directory (`.gitrs`) is
  modelled by the `FsNode` tree; directory-entry order is the stored list
  order (Rust's `fs::read_dir` order is unspecified).
-/

namespace Gitrs

/-- Byte strings: Rust `Vec<u8>` / `&[u8]` / `String` / `&str`. -/
abbrev Bytes := List Nat

/-- The byte list of an ASCII/UTF-8 Lean string literal (used to transcribe
Rust string literals). -/
def bytesOf (s : String) : Bytes := s.data.map (fun c => c.toNat)

/-- `slice l a b` is the Rust slice `l[a..b]`. -/
def slice (l : Bytes) (a b : Nat) : Bytes := (l.drop a).take (b - a)

/-- Index of the first element satisfying `p`, as Rust's
`iter().position(...)`. -/
def firstIdx (p : Nat → Bool) : Bytes → Option Nat
  | [] => none
  | b :: bs => if p b then some 0 else (firstIdx p bs).map (· + 1)

/-- Rust's `l[start..].iter().position(|b| b == target).map(|i| i + start)`:
absolute index of the first occurrence of `target` at or after `start`. -/
def firstIdxFrom (l : Bytes) (target : Nat) (start : Nat) : Option Nat :=
  (firstIdx (· == target) (l.drop start)).map (· + start)

/-- Fuel-indexed digit emitter behind `toDecimal` (the fuel is always
sufficient: each step divides the value by 10). -/
def toDecimalGo : Nat → Nat → Bytes
  | 0, _ => []
  | fuel + 1, n =>
    if n < 10 then [48 + n]
    else toDecimalGo fuel (n / 10) ++ [48 + n % 10]

/-- ASCII decimal digits of `n`, as produced by Rust's `format!("{}", n)`
for an unsigned integer. -/
def toDecimal (n : Nat) : Bytes := toDecimalGo (n + 1) n

/-- Is `b` the code of an ASCII decimal digit? -/
def isDigitByte (b : Nat) : Bool := 48 ≤ b && b ≤ 57

/-- Rust `str::parse::<usize>()` restricted to the plain-digits form the
code produces (no sign handling is needed for the inputs in this file);
`none` models a parse error. -/
def parseDecimal (l : Bytes) : Option Nat :=
  if l.isEmpty then none
  else if l.all isDigitByte then
    some (l.foldl (fun acc b => acc * 10 + (b - 48)) 0)
  else none

/-- `k` big-endian bytes of `n` (Rust `uN::to_be_bytes`; truncates to
`n % 256^k` exactly as the fixed-width Rust integer type does). -/
def toBytesBE : Nat → Nat → Bytes
  | 0, _ => []
  | k + 1, n => toBytesBE k (n / 256) ++ [n % 256]

/-- Big-endian value of a byte list (Rust `uN::from_be_bytes`). -/
def fromBytesBE (l : Bytes) : Nat := l.foldl (fun acc b => acc * 256 + b) 0

/-- Value of one ASCII hex digit (upper or lower case, as accepted by
`hex::decode`). -/
def hexVal (b : Nat) : Option Nat :=
  if 48 ≤ b && b ≤ 57 then some (b - 48)
  else if 97 ≤ b && b ≤ 102 then some (b - 87)
  else if 65 ≤ b && b ≤ 70 then some (b - 55)
  else none

/-- `hex::decode`: pairs of hex digits to raw bytes; `none` on an odd
length or a non-hex character. -/
def hexDecode : Bytes → Option Bytes
  | [] => some []
  | [_] => none
  | h :: l :: rest => do
    let hi ← hexVal h
    let lo ← hexVal l
    let tail ← hexDecode rest
    pure ((hi * 16 + lo) :: tail)

/-- Lower-case ASCII hex digit of a value `< 16` (as emitted by
`hex::encode`). -/
def hexDigitLower (n : Nat) : Nat := if n < 10 then 48 + n else 87 + n

/-- `hex::encode`: raw bytes to lower-case hex. -/
def hexEncode : Bytes → Bytes
  | [] => []
  | b :: rest => hexDigitLower (b / 16) :: hexDigitLower (b % 16) :: hexEncode rest

/-- Is `b` a lower-case ASCII hex digit? -/
def isLowerHexDigit (b : Nat) : Bool :=
  (48 ≤ b && b ≤ 57) || (97 ≤ b && b ≤ 102)

/-- Rust `char::is_ascii_hexdigit`. -/
def isAsciiHexdigitByte (b : Nat) : Bool :=
  (48 ≤ b && b ≤ 57) || (65 ≤ b && b ≤ 70) || (97 ≤ b && b ≤ 102)

/-- ASCII lower-casing, byte-wise (`str::to_lowercase` restricted to ASCII;
the inputs this is applied to are hex strings). -/
def asciiLowercase (l : Bytes) : Bytes :=
  l.map (fun b => if 65 ≤ b && b ≤ 90 then b + 32 else b)

/-- Is `b` an ASCII whitespace byte?  (`str::trim` trims Unicode
whitespace; the inputs trimmed in this development are ASCII.) -/
def isWspByte (b : Nat) : Bool := b == 32 || (9 ≤ b && b ≤ 13)

/-- `str::trim` (ASCII fragment). -/
def trimAscii (l : Bytes) : Bytes :=
  ((l.dropWhile isWspByte).reverse.dropWhile isWspByte).reverse

/-- Rust `str::split(sep)`: always at least one (possibly empty) part. -/
def splitOnByte (sep : Nat) : Bytes → List Bytes
  | [] => [[]]
  | b :: rest =>
    if b = sep then [] :: splitOnByte sep rest
    else
      match splitOnByte sep rest with
      | p :: ps => (b :: p) :: ps
      | [] => [[b]]

/-- Join byte strings with a separator (used for `Vec::join`-style
concatenation). -/
def joinWith (sep : Bytes) : List Bytes → Bytes
  | [] => []
  | [p] => p
  | p :: ps => p ++ sep ++ joinWith sep ps

/-- Rust `str::replace("\n ", "\n")`: left-to-right, non-overlapping. -/
def replaceNlSp : Bytes → Bytes
  | 10 :: 32 :: rest => 10 :: replaceNlSp rest
  | b :: rest => b :: replaceNlSp rest
  | [] => []

/-- Lexicographic `≤` on byte strings: the `Ord` used by Rust `String`
comparison in `sort_by_key`. -/
def bytesLe : Bytes → Bytes → Bool
  | [], _ => true
  | _ :: _, [] => false
  | a :: as', b :: bs' =>
    if a < b then true
    else if b < a then false
    else bytesLe as' bs'

/-- Stable insertion of `x` into a sorted list: `x` goes after every
element `y` with `le y x`. -/
def insertStable (le : α → α → Bool) (x : α) : List α → List α
  | [] => [x]
  | y :: ys => if le y x then y :: insertStable le x ys else x :: y :: ys

/-- A stable sort (insertion sort), modelling Rust's stable
`slice::sort_by_key`: for the total transitive comparisons used in this
file it produces the unique stable sorted permutation. -/
def sortStable (le : α → α → Bool) (l : List α) : List α :=
  l.foldl (fun acc x => insertStable le x acc) []

/-! ## UTF-8 model

`String::from_utf8_lossy` and `str::from_utf8` are modelled byte-wise.
`utf8SeqLen` recognises one well-formed UTF-8 sequence at the head of the
list (the ranges are those of the Rust standard library's UTF-8 validator:
no overlongs, no surrogates, maximum U+10FFFF); `utf8BadLen` is the number
of bytes an invalid sequence consumes (the maximal valid prefix, matching
the `Utf8Error::error_len` behaviour the lossy decoder uses). -/

/-- Is `b` a UTF-8 continuation byte? -/
def isUtf8Cont (b : Nat) : Bool := 128 ≤ b && b ≤ 191

/-- Byte length of a well-formed UTF-8 sequence at the head of the list,
or `none` if the head does not start one. -/
def utf8SeqLen : Bytes → Option Nat
  | [] => none
  | b :: rest =>
    if b ≤ 127 then some 1
    else if 194 ≤ b && b ≤ 223 then
      match rest with
      | c1 :: _ => if isUtf8Cont c1 then some 2 else none
      | [] => none
    else if 224 ≤ b && b ≤ 239 then
      match rest with
      | c1 :: c2 :: _ =>
        if utf8Cont3Ok b c1 && isUtf8Cont c2 then some 3 else none
      | _ => none
    else if 240 ≤ b && b ≤ 244 then
      match rest with
      | c1 :: c2 :: c3 :: _ =>
        if utf8Cont4Ok b c1 && isUtf8Cont c2 && isUtf8Cont c3 then some 4
        else none
      | _ => none
    else none
where
  /-- Allowed first continuation byte of a three-byte sequence. -/
  utf8Cont3Ok (b c1 : Nat) : Bool :=
    if b = 224 then 160 ≤ c1 && c1 ≤ 191
    else if b = 237 then 128 ≤ c1 && c1 ≤ 159
    else isUtf8Cont c1
  /-- Allowed first continuation byte of a four-byte sequence. -/
  utf8Cont4Ok (b c1 : Nat) : Bool :=
    if b = 240 then 144 ≤ c1 && c1 ≤ 191
    else if b = 244 then 128 ≤ c1 && c1 ≤ 143
    else isUtf8Cont c1

/-- Number of bytes consumed by an invalid sequence at the head of the
list (always at least 1): the length of its maximal valid prefix, or 1. -/
def utf8BadLen : Bytes → Nat
  | [] => 1
  | b :: rest =>
    if 224 ≤ b && b ≤ 239 then
      match rest with
      | c1 :: rest2 =>
        if utf8SeqLen.utf8Cont3Ok b c1 then
          match rest2 with
          | _ :: _ => 2
          | [] => 2
        else 1
      | [] => 1
    else if 240 ≤ b && b ≤ 244 then
      match rest with
      | c1 :: rest2 =>
        if utf8SeqLen.utf8Cont4Ok b c1 then
          match rest2 with
          | c2 :: _ => if isUtf8Cont c2 then 3 else 2
          | [] => 2
        else 1
      | [] => 1
    else 1

/-- The replacement character U+FFFD, UTF-8 encoded. -/
def replacementBytes : Bytes := [239, 191, 189]

/-- Fuel-indexed decoder behind `utf8Lossy` (each step consumes at least
one byte, so fuel equal to the length is always sufficient).  The
recursive call drops `k - 1` bytes of the tail, which equals dropping
`k` bytes of the whole list since `utf8SeqLen`/`utf8BadLen` always
consume at least one byte. -/
def utf8LossyGo : Nat → Bytes → Bytes
  | 0, _ => []
  | _ + 1, [] => []
  | fuel + 1, b :: rest =>
    match utf8SeqLen (b :: rest) with
    | some k => (b :: rest).take k ++ utf8LossyGo fuel (rest.drop (k - 1))
    | none => replacementBytes ++ utf8LossyGo fuel (rest.drop (utf8BadLen (b :: rest) - 1))

/-- `String::from_utf8_lossy`, on bytes: copy well-formed sequences,
replace each maximal invalid subpart by U+FFFD. -/
def utf8Lossy (l : Bytes) : Bytes := utf8LossyGo (l.length + 1) l

/-- Fuel-indexed validator behind `isValidUtf8` (see `utf8LossyGo`). -/
def isValidUtf8Go : Nat → Bytes → Bool
  | 0, _ => false
  | _ + 1, [] => true
  | fuel + 1, b :: rest =>
    match utf8SeqLen (b :: rest) with
    | some k => isValidUtf8Go fuel (rest.drop (k - 1))
    | none => false

/-- `str::from_utf8(...).is_ok()`: UTF-8 validity. -/
def isValidUtf8 (l : Bytes) : Bool := isValidUtf8Go (l.length + 1) l

/-! ## SHA-1

A faithful implementation of the `sha1` crate's digest (FIPS 180-1),
operating on `Nat` with explicit reduction modulo `2^32`. -/

/-- Rotate a 32-bit word left by `k`. -/
def rotl32 (k n : Nat) : Nat := ((n <<< k) ||| (n >>> (32 - k))) % 4294967296

/-- Split a byte list into big-endian 32-bit words (the input is always a
multiple of 4 bytes long). -/
def words32 : Bytes → List Nat
  | b0 :: b1 :: b2 :: b3 :: rest =>
    (((b0 * 256 + b1) * 256 + b2) * 256 + b3) :: words32 rest
  | _ => []

/-- Fuel-indexed block splitter behind `blocks64`. -/
def blocks64Go : Nat → Bytes → List Bytes
  | 0, _ => []
  | _ + 1, [] => []
  | fuel + 1, b :: rest => (b :: rest).take 64 :: blocks64Go fuel (rest.drop 63)

/-- Split a byte list into 64-byte blocks. -/
def blocks64 (l : Bytes) : List Bytes := blocks64Go (l.length + 1) l

/-- Extend the 16 message words of a block to the 80-word schedule. -/
def sha1ExtendW (w : Array Nat) : Array Nat :=
  (List.range 64).foldl
    (fun w j =>
      w.push (rotl32 1 ((w.getD (j + 13) 0) ^^^ (w.getD (j + 8) 0) ^^^
        (w.getD (j + 2) 0) ^^^ (w.getD j 0))))
    w

/-- The SHA-1 round function. -/
def sha1F (i b c d : Nat) : Nat :=
  if i < 20 then (b &&& c) ||| ((b ^^^ 4294967295) &&& d)
  else if i < 40 then b ^^^ c ^^^ d
  else if i < 60 then (b &&& c) ||| (b &&& d) ||| (c &&& d)
  else b ^^^ c ^^^ d

/-- The SHA-1 round constants. -/
def sha1K (i : Nat) : Nat :=
  if i < 20 then 1518500249
  else if i < 40 then 1859775393
  else if i < 60 then 2400959708
  else 3395469782

/-- One SHA-1 round. -/
def sha1Round (w : Array Nat) (st : Nat × Nat × Nat × Nat × Nat) (i : Nat) :
    Nat × Nat × Nat × Nat × Nat :=
  let (a, b, c, d, e) := st
  let tmp := (rotl32 5 a + sha1F i b c d + e + sha1K i + w.getD i 0) % 4294967296
  (tmp, a, rotl32 30 b, c, d)

/-- Process one 64-byte block. -/
def sha1Block (h : Nat × Nat × Nat × Nat × Nat) (block : Bytes) :
    Nat × Nat × Nat × Nat × Nat :=
  let w := sha1ExtendW (Array.mk (words32 block))
  let (h0, h1, h2, h3, h4) := h
  let (a, b, c, d, e) := (List.range 80).foldl (sha1Round w) h
  ((h0 + a) % 4294967296, (h1 + b) % 4294967296, (h2 + c) % 4294967296,
   (h3 + d) % 4294967296, (h4 + e) % 4294967296)

/-- The SHA-1 initialisation vector. -/
def sha1Init : Nat × Nat × Nat × Nat × Nat :=
  (1732584193, 4023233417, 2562383102, 271733878, 3285377520)

/-- The 20-byte SHA-1 digest of a message. -/
def sha1Bytes (msg : Bytes) : Bytes :=
  let padded := msg ++ [128] ++
    List.replicate ((64 + 55 - msg.length % 64) % 64) 0 ++
    toBytesBE 8 (8 * msg.length)
  let (h0, h1, h2, h3, h4) := (blocks64 padded).foldl sha1Block sha1Init
  toBytesBE 4 h0 ++ toBytesBE 4 h1 ++ toBytesBE 4 h2 ++
    toBytesBE 4 h3 ++ toBytesBE 4 h4

/-- The 40-character lower-case hex SHA-1 digest, as returned by
`hex::encode(hasher.finalize())` in `GitrsObject::hash`. -/
def sha1Hex (msg : Bytes) : Bytes := hexEncode (sha1Bytes msg)

/-! ## Outcomes, compression, and the filesystem model -/

/-- The error kinds of `src/repository.rs` / `src/object.rs` operations,
following the taxonomy of the specification (the code carries them as
`anyhow` message strings; each `anyhow!` site is mapped to its kind). -/
inductive RErr where
  /-- A missing object file, reference file or directory. -/
  | notFound
  /-- A malformed header, size mismatch, bad UTF-8 or parse failure. -/
  | malformed
  /-- Name resolution produced several candidates (`"Ambiguous reference
  ... Candidates: ..."`); the candidate digests are carried along. -/
  | ambiguous (cands : List Bytes)
  /-- A type-resolution failure (`"Couldn't resolve object type"`, `"No
  object matching requested type"`, `"Unexpected object in tree"`,
  unrecognized object type). -/
  | typeErr
  /-- Any other error (`"Cannot resolve empty object name"`). -/
  | otherErr
deriving DecidableEq

/-- Outcome of a Rust call: a returned value, a returned `Err`, or a
panic (including `expect`/`assert!`/slice-index panics). -/
inductive ROut (α : Type) where
  | ok (a : α)
  | err (e : RErr)
  | panicked
deriving DecidableEq

/-- `flate2` zlib compression, modelled as the identity: the code only
relies on decoding inverting encoding. -/
def zlibCompress (b : Bytes) : Bytes := b

/-- `flate2` zlib decompression (see `zlibCompress`). -/
def zlibDecompress (b : Bytes) : Bytes := b

/-- A node of the filesystem under the repository metadata directory. -/
inductive FsNode where
  | file (content : Bytes)
  | dir (entries : List (Bytes × FsNode))

/-- Directory entries of the metadata directory (`.gitrs`) root. -/
abbrev FsEntries := List (Bytes × FsNode)

/-- Look a name up in a directory's entries. -/
def findEntry (n : Bytes) : FsEntries → Option FsNode
  | [] => none
  | (k, v) :: rest => if n = k then some v else findEntry n rest

/-- Replace the node stored under an existing name, keeping its position. -/
def replaceEntry (n : Bytes) (nd : FsNode) : FsEntries → FsEntries
  | [] => []
  | (k, v) :: rest =>
    if n = k then (k, nd) :: rest else (k, v) :: replaceEntry n nd rest

/-- Walk a path down a node. -/
def walkNode : FsNode → List Bytes → Option FsNode
  | node, [] => some node
  | FsNode.file _, _ :: _ => none
  | FsNode.dir es, seg :: rest =>
    match findEntry seg es with
    | some child => walkNode child rest
    | none => none

/-- The in-memory repository: the contents of its metadata directory
(`Repository.gitdir`). -/
structure Repository where
  gitdir : FsEntries

/-- `Repository::get_path_to_file` / `get_path_to_file_if_exists` followed
by reading the file (`fs::read`, or `File::open` + decode in
`GitrsObject::read`): `ok` the content if a file exists at the path;
`err notFound` if the path is missing or is a directory; `panicked` if the
parent prefix of the path exists as a file (the helper's
`assert!(path.is_dir())`) or the path is empty (`paths[..len - 1]`
underflows). -/
def Repository.readFileAt (repo : Repository) (path : List Bytes) : ROut Bytes :=
  match path with
  | [] => ROut.panicked
  | _ :: _ => go (FsNode.dir repo.gitdir) path
where
  go : FsNode → List Bytes → ROut Bytes
  | FsNode.file _, [] => ROut.err RErr.notFound
  | FsNode.dir _, [] => ROut.err RErr.notFound
  | FsNode.file _, _ :: _ => ROut.err RErr.notFound
  | FsNode.dir es, seg :: rest =>
    match findEntry seg es, rest with
    | some (FsNode.file c), [] => ROut.ok c
    | some (FsNode.file _), [_] => ROut.panicked
    | some (FsNode.file _), _ :: _ :: _ => ROut.err RErr.notFound
    | some (FsNode.dir _), [] => ROut.err RErr.notFound
    | some (FsNode.dir es2), r :: rs => go (FsNode.dir es2) (r :: rs)
    | none, _ => ROut.err RErr.notFound

/-- `Repository::get_path_to_dir_if_exists` followed by `fs::read_dir`:
the entries of the directory at the path; `panicked` models the helper's
`assert!(path.is_dir())` when a file sits at the path. -/
def Repository.readDirAt (repo : Repository) (path : List Bytes) : ROut FsEntries :=
  match walkNode (FsNode.dir repo.gitdir) path with
  | some (FsNode.dir es) => ROut.ok es
  | some (FsNode.file _) => ROut.panicked
  | none => ROut.err RErr.notFound

/-- `Repository::upsert_file` on directory entries: create the missing
directories of the path prefix, then create or truncate the file at the
last segment.  `none` models the failure/panic cases: a file blocking a
directory segment (`assert!(path.is_dir())`), a directory sitting where
the file should be created (`File::create` fails), or an empty path. -/
def upsertDir : FsEntries → List Bytes → Bytes → Option FsEntries
  | _, [], _ => none
  | es, seg :: rest, content =>
    match rest with
    | [] =>
      match findEntry seg es with
      | some (FsNode.dir _) => none
      | some (FsNode.file _) => some (replaceEntry seg (FsNode.file content) es)
      | none => some (es ++ [(seg, FsNode.file content)])
    | r :: rs =>
      match findEntry seg es with
      | some (FsNode.dir es2) =>
        match upsertDir es2 (r :: rs) content with
        | some es2' => some (replaceEntry seg (FsNode.dir es2') es)
        | none => none
      | some (FsNode.file _) => none
      | none =>
        match upsertDir [] (r :: rs) content with
        | some es2' => some (es ++ [(seg, FsNode.dir es2')])
        | none => none

/-- `Repository::upsert_file`: store (zlib-compressed, see `zlibCompress`)
data at a path under the metadata directory. -/
def Repository.upsertFile (repo : Repository) (path : List Bytes) (data : Bytes) :
    Option Repository :=
  (upsertDir repo.gitdir path (zlibCompress data)).map Repository.mk

/-! ## The KVLM codec (`src/kvlm.rs`)

The `IndexMap<Option<String>, Vec<String>>` is modelled as an
insertion-ordered association list with at most one entry per key; the
`None` key holds the message body. -/

/-- The `Kvlm` data: insertion-ordered key/values association list. -/
abbrev KvlmMap := List (Option Bytes × List Bytes)

/-- `IndexMap::entry(key).and_modify(|v| v.push(value)).or_insert(vec![value])`:
append the value to an existing key in place, or append a new entry. -/
def kvlmUpdate (m : KvlmMap) (key : Option Bytes) (v : Bytes) : KvlmMap :=
  match m with
  | [] => [(key, [v])]
  | (k, vs) :: rest =>
    if key = k then (k, vs ++ [v]) :: rest
    else (k, vs) :: kvlmUpdate rest key v

/-- `IndexMap::get`. -/
def kvlmGet (m : KvlmMap) (key : Option Bytes) : Option (List Bytes) :=
  match m with
  | [] => none
  | (k, vs) :: rest => if key = k then some vs else kvlmGet rest key

/-- The inner loop of `Kvlm::parse` that finds the end of a value: the
index of the newline terminating the last continuation line, scanning
from `endPos + 1` (`none` models the `"Expected newline"` panic; fuel is
always sufficient for the callers in this file). -/
def kvlmValueEnd (raw : Bytes) : Nat → Nat → Option Nat
  | 0, _ => none
  | fuel + 1, endPos =>
    match firstIdxFrom raw 10 (endPos + 1) with
    | none => none
    | some nl =>
      if nl + 1 < raw.length && raw.getD (nl + 1) 0 == 32 then
        kvlmValueEnd raw fuel nl
      else some nl

/-- The loop of `Kvlm::parse` (`none` models the `"Expected space after
key"` / `"Expected newline"` panics). -/
def kvlmParseGo (raw : Bytes) : Nat → Nat → KvlmMap → Option KvlmMap
  | 0, _, _ => none
  | fuel + 1, pos, acc =>
    if pos < raw.length then
      if raw.getD pos 0 = 10 then
        some (acc ++ [(none, [utf8Lossy (raw.drop (pos + 1))])])
      else
        match firstIdxFrom raw 32 pos with
        | none => none
        | some spaceIdx =>
          let key := utf8Lossy (slice raw pos spaceIdx)
          match kvlmValueEnd raw (fuel + 1) spaceIdx with
          | none => none
          | some endIdx =>
            let valueRaw := slice raw (spaceIdx + 1) (endIdx + 1)
            let value := replaceNlSp (utf8Lossy valueRaw)
            kvlmParseGo raw fuel (endIdx + 1) (kvlmUpdate acc (some key) value)
    else some acc

namespace Kvlm

/-- `Kvlm::parse`: parse raw bytes into the ordered key/value map.  Note
that the value slice is `raw_data[space_idx + 1..=end]` — an inclusive
range, so the value retains its terminating newline. -/
def parse (raw : Bytes) : Option KvlmMap :=
  kvlmParseGo raw (raw.length + 1) 0 []

/-- The continuation re-encoding inside `Kvlm::serialize`: emit the value
with each embedded newline followed by a single space (`split('\n')`
interleaved with `"\n "`). -/
def encodeValue (v : Bytes) : Bytes := joinWith [10, 32] (splitOnByte 10 v)

/-- `Kvlm::serialize`: emit `key value\n` lines for every `Some` key in
order, then a blank line and the message body when the `None` key is
present. -/
def serialize (m : KvlmMap) : Bytes :=
  (m.foldl
    (fun out kv =>
      match kv with
      | (some field, vs) =>
        vs.foldl (fun out v => out ++ field ++ [32] ++ encodeValue v ++ [10]) out
      | (none, _) => out)
    []) ++
  (match kvlmGet m none with
   | some (msg :: _) => 10 :: msg
   | _ => [])

end Kvlm

/-! ## Object types and the tree codec (`src/object.rs`, `src/object/tree.rs`) -/

/-- `ObjectType`: the four supported object kinds. -/
inductive ObjectType where
  | blob
  | commit
  | tag
  | tree
deriving DecidableEq

namespace ObjectType

/-- The `Display` form (`"blob"`, `"commit"`, `"tag"`, `"tree"`). -/
def toBytes : ObjectType → Bytes
  | blob => bytesOf "blob"
  | commit => bytesOf "commit"
  | tag => bytesOf "tag"
  | tree => bytesOf "tree"

/-- `ObjectType::try_from(&str)`: `none` models the
`UnrecognizedObjectType` error. -/
def tryFrom (s : Bytes) : Option ObjectType :=
  if s = bytesOf "blob" then some blob
  else if s = bytesOf "commit" then some commit
  else if s = bytesOf "tag" then some tag
  else if s = bytesOf "tree" then some tree
  else none

end ObjectType

/-- A tree entry (`Leaf` in `src/object/tree.rs`): mode tag, path relative
to the worktree, and the child object's hash.  `file_mode` and `hash` are
Rust `String`s, `path` a `PathBuf`; all are byte lists here. -/
structure Leaf where
  file_mode : Bytes
  path : Bytes
  hash : Bytes
deriving DecidableEq

namespace Leaf

/-- `Leaf::parse`: one entry at cursor position `currPos` — mode up to the
first space (zero-padded to 6 bytes when 5 were present), path up to the
next NUL, then exactly 20 raw hash bytes, decoded with
`String::from_utf8_lossy`.  Returns the leaf and the new cursor position;
`none` models the `unwrap`/`read_exact` panics. -/
def parse (data : Bytes) (currPos : Nat) : Option (Leaf × Nat) :=
  match firstIdxFrom data 32 currPos with
  | none => none
  | some spaceIdx =>
    let modeRaw := utf8Lossy (slice data currPos spaceIdx)
    let mode := if spaceIdx - currPos = 5 then 48 :: modeRaw else modeRaw
    match firstIdxFrom data 0 spaceIdx with
    | none => none
    | some nullIdx =>
      if nullIdx + 1 + 20 ≤ data.length then
        some ({ file_mode := mode,
                path := utf8Lossy (slice data (spaceIdx + 1) nullIdx),
                hash := utf8Lossy (slice data (nullIdx + 1) (nullIdx + 21)) },
              nullIdx + 21)
      else none

/-- `Leaf::get_type_from_mode`: map the 1-or-2-character leading digit
group of the mode to an object kind; `none` models the
`"Weird leaf mode"` panic. -/
def get_type_from_mode (file_mode : Bytes) : Option ObjectType :=
  let fileType := if file_mode.length = 5 then file_mode.take 1 else file_mode.take 2
  if fileType = bytesOf "4" ∨ fileType = bytesOf "04" then some ObjectType.tree
  else if fileType = bytesOf "10" ∨ fileType = bytesOf "12" then some ObjectType.blob
  else if fileType = bytesOf "16" then some ObjectType.commit
  else none

end Leaf

namespace Tree

/-- The sort key used by `Tree::serialize`: the path (via
`to_string_lossy`), with a trailing `/` appended when the mode does not
start with `"10"`. -/
def sortKey (leaf : Leaf) : Bytes :=
  let p := utf8Lossy leaf.path
  if (bytesOf "10").isPrefixOf leaf.file_mode then p else p ++ [47]

/-- `Tree::serialize`: sort the records (stably, by `sortKey`) and emit
`"{mode} {path}\x00{hash}"` for each — note the hash is written as its
*string* bytes (40 bytes for a hex digest), not as 20 raw bytes. -/
def serialize (records : List Leaf) : Bytes :=
  (sortStable (fun a b => bytesLe (sortKey a) (sortKey b)) records).foldl
    (fun out leaf =>
      out ++ leaf.file_mode ++ [32] ++ utf8Lossy leaf.path ++ [0] ++ leaf.hash)
    []

/-- The loop of `Tree::deserialize` (fuel is always sufficient: the
cursor advances by at least 21 per record). -/
def deserializeGo (data : Bytes) : Nat → Nat → List Leaf → Option (List Leaf)
  | 0, _, _ => none
  | fuel + 1, pos, acc =>
    if pos < data.length then
      match Leaf.parse data pos with
      | some (leaf, pos') => deserializeGo data fuel pos' (acc ++ [leaf])
      | none => none
    else some acc

/-- `Tree::deserialize`: parse records until the buffer is exhausted;
`none` models the `Leaf::parse` panics. -/
def deserialize (data : Bytes) : Option (List Leaf) :=
  deserializeGo data (data.length + 1) 0 []

end Tree

/-- `GitrsObject`: the tagged union of the four object variants.  A
`Commit`/`Tag` wraps a `Kvlm`; a `Tree` wraps its records. -/
inductive GitrsObject where
  | blobObject (data : Bytes)
  | commitObject (kvlm : KvlmMap)
  | tagObject (kvlm : KvlmMap)
  | treeObject (records : List Leaf)
deriving DecidableEq

namespace GitrsObject

/-- `GitrsObject::get_type`. -/
def get_type : GitrsObject → ObjectType
  | blobObject _ => ObjectType.blob
  | commitObject _ => ObjectType.commit
  | tagObject _ => ObjectType.tag
  | treeObject _ => ObjectType.tree

/-- `GitrsObject::serialize`: the variant's payload encoding (no header). -/
def serializeBytes : GitrsObject → Bytes
  | blobObject data => data
  | commitObject kvlm => Kvlm.serialize kvlm
  | tagObject kvlm => Kvlm.serialize kvlm
  | treeObject records => Tree.serialize records

/-- `GitrsObject::deserialize`: dispatch on the object type; `none`
models the panics inside `Kvlm::parse` / `Leaf::parse`. -/
def deserialize (data : Bytes) : ObjectType → Option GitrsObject
  | ObjectType.blob => some (blobObject data)
  | ObjectType.commit => (Kvlm.parse data).map commitObject
  | ObjectType.tag => (Kvlm.parse data).map tagObject
  | ObjectType.tree => (Tree.deserialize data).map treeObject

/-- `GitrsObject::write`: serialize, prepend the `"<type> <len>\x00"`
header, hash, store at `objects/<2>/<38>` and return the digest together
with the updated repository.  `none` models the `expect("Could not write
object file")` panic. -/
def write (repo : Repository) (obj : GitrsObject) : Option (Repository × Bytes) :=
  let data := obj.serializeBytes
  let payload := obj.get_type.toBytes ++ [32] ++ toDecimal data.length ++ [0] ++ data
  let sha := sha1Hex payload
  match repo.upsertFile [bytesOf "objects", sha.take 2, sha.drop 2] payload with
  | some repo' => some (repo', sha)
  | none => none

/-- `GitrsObject::deserialize_and_write`. -/
def deserialize_and_write (repo : Repository) (data : Bytes) (objectType : ObjectType) :
    Option (Repository × Bytes) :=
  match deserialize data objectType with
  | some obj => write repo obj
  | none => none

/-- `GitrsObject::read`: locate `objects/<2>/<38>`, decompress, validate
the `"<type> <size>\x00"` header, check the size, and deserialize.
`panicked` covers the byte-slice panic on a digest shorter than 2 bytes
and the panics inside deserialization. -/
def read (repo : Repository) (sha : Bytes) : ROut GitrsObject :=
  if sha.length < 2 then ROut.panicked
  else
    match repo.readFileAt [bytesOf "objects", sha.take 2, sha.drop 2] with
    | ROut.panicked => ROut.panicked
    | ROut.err _ => ROut.err RErr.notFound
    | ROut.ok stored =>
      let decompressed := zlibDecompress stored
      match firstIdx (· == 32) decompressed with
      | none => ROut.err RErr.malformed
      | some typeEnd =>
        match firstIdxFrom decompressed 0 typeEnd with
        | none => ROut.err RErr.malformed
        | some sizeEnd =>
          if isValidUtf8 (decompressed.take typeEnd) then
            match ObjectType.tryFrom (decompressed.take typeEnd) with
            | none => ROut.err RErr.typeErr
            | some objectType =>
              let sizeBytes := slice decompressed (typeEnd + 1) sizeEnd
              if isValidUtf8 sizeBytes then
                match parseDecimal sizeBytes with
                | none => ROut.err RErr.malformed
                | some objectSize =>
                  let content := decompressed.drop (sizeEnd + 1)
                  if objectSize = content.length then
                    match GitrsObject.deserialize content objectType with
                    | some obj => ROut.ok obj
                    | none => ROut.panicked
                  else ROut.err RErr.malformed
              else ROut.err RErr.malformed
          else ROut.err RErr.malformed

end GitrsObject

/-! ## The reference store (`src/refs.rs`)

`Ref::resolve` follows `ref:` indirections recursively with no cycle
guard (spec §9); the recursion is given fuel, and fuel exhaustion is
modelled as `panicked` (a stack overflow aborts the process). -/

namespace Ref

/-- `Ref::resolve`: read the file at the path, strip one trailing
newline; on a `ref:` prefix, split `data[5..]` on `/` and recurse,
otherwise return the trimmed content.  `panicked` also covers the
out-of-bounds slice `&data[5..]` when the content is exactly `"ref:"`. -/
def resolve (repo : Repository) : Nat → List Bytes → ROut Bytes
  | 0, _ => ROut.panicked
  | fuel + 1, refPath =>
    match repo.readFileAt refPath with
    | ROut.panicked => ROut.panicked
    | ROut.err e => ROut.err e
    | ROut.ok content =>
      let bytes := if content.getLast? = some 10 then content.dropLast else content
      if isValidUtf8 bytes then
        if (bytesOf "ref:").isPrefixOf bytes then
          if bytes.length < 5 then ROut.panicked
          else resolve repo fuel (splitOnByte 47 (bytes.drop 5))
        else ROut.ok bytes
      else ROut.err RErr.malformed

/-- `IndexMap::insert` on an ordered name/digest map: replace in place or
append. -/
def indexMapInsert (m : List (Bytes × Bytes)) (k v : Bytes) : List (Bytes × Bytes) :=
  match m with
  | [] => [(k, v)]
  | (k', v') :: rest =>
    if k = k' then (k', v) :: rest else (k', v') :: indexMapInsert rest k v

/-- `Vec<(String, String)>::into_iter().collect::<IndexMap<_, _>>()`. -/
def indexMapCollect (l : List (Bytes × Bytes)) : List (Bytes × Bytes) :=
  l.foldl (fun m kv => indexMapInsert m kv.1 kv.2) []

/-- Sort directory entries by file name (`entries.sort_by_key(|e|
e.file_name())`; Rust's `sort_by_key` is stable). -/
def sortEntries (es : FsEntries) : FsEntries :=
  sortStable (fun a b => bytesLe a.1 b.1) es

/-- The `try_fold` over sorted entries inside `Ref::list_at_dir`,
parameterised over the recursion (`recur`) into a subdirectory's
entries.  A subdirectory is recursed at its position in the sorted
order; a file is resolved (with recursion fuel `rfuel` for `ref:`
chains) and recorded under the slash-join of `path` and the entry name.
`panicked` also covers the `to_str().expect(...)` on a non-UTF-8 path
component.  (The code re-reads a subdirectory from its path; the model
recurses on the directory node at hand, which is the same node on a real
filesystem, where names within a directory are unique.) -/
def listFoldWith (repo : Repository)
    (recur : List Bytes → FsEntries → ROut (List (Bytes × Bytes)))
    (rfuel : Nat) (path : List Bytes) : FsEntries → ROut (List (Bytes × Bytes))
  | [] => ROut.ok []
  | (n, FsNode.dir es2) :: rest =>
    if isValidUtf8 n then
      match recur (path ++ [n]) es2 with
      | ROut.ok sub =>
        match listFoldWith repo recur rfuel path rest with
        | ROut.ok acc => ROut.ok (sub ++ acc)
        | other => other
      | other => other
    else ROut.panicked
  | (n, FsNode.file _) :: rest =>
    match resolve repo rfuel (path ++ [utf8Lossy n]) with
    | ROut.ok d =>
      match listFoldWith repo recur rfuel path rest with
      | ROut.ok acc => ROut.ok ((joinWith [47] (path ++ [utf8Lossy n]), d) :: acc)
      | other => other
    | ROut.err e => ROut.err e
    | ROut.panicked => ROut.panicked

/-- One level of `Ref::list_at_dir`'s recursion: sort the entries and
fold, recursing one level deeper with one unit of fuel less. -/
def listLevel (repo : Repository) : Nat → List Bytes → FsEntries → ROut (List (Bytes × Bytes))
  | 0, _, _ => ROut.panicked
  | fuel + 1, path, es =>
    listFoldWith repo (listLevel repo fuel) fuel path (sortEntries es)

/-- `Ref::list_at_dir`: read the directory at `path` (segments of the
listed directory's own path, which are also the leading components of
every produced name), then sort and fold its entries (`listFoldWith`).
Fuel models the unbounded recursion depth of directory nesting and
`ref:` chains. -/
def list_at_dir (repo : Repository) (fuel : Nat) (path : List Bytes) :
    ROut (List (Bytes × Bytes)) :=
  match fuel with
  | 0 => ROut.panicked
  | fuel + 1 =>
    match walkNode (FsNode.dir repo.gitdir) path with
    | some (FsNode.dir es) => listFoldWith repo (listLevel repo fuel) fuel path (sortEntries es)
    | _ => ROut.err RErr.notFound

/-- `Ref::list_at`: collect the listing into an `IndexMap`. -/
def list_at (repo : Repository) (fuel : Nat) (path : List Bytes) :
    ROut (List (Bytes × Bytes)) :=
  match list_at_dir repo fuel path with
  | ROut.ok l => ROut.ok (indexMapCollect l)
  | other => other

end Ref

/-! ## The name resolver (`GitrsObject::resolve` / `find`) -/

/-- `ObjectFindOptions`. -/
structure ObjectFindOptions where
  object_type : ObjectType
  should_follow : Bool

/-- `Commit::get_tree_hash`: the first value of the `tree` key (`none`
models the two `expect` panics). -/
def Commit.get_tree_hash (kvlm : KvlmMap) : Option Bytes :=
  (kvlmGet kvlm (some (bytesOf "tree"))).bind List.head?

/-- Modelled from the spec: `Tag::get_object_hash` is called by
`GitrsObject::find_with_options` (src/object.rs line 256) but is not
defined anywhere under `src/`; per spec §4.4 "an Annotation is followed
to its `object` key", it returns the first value of the `object` key. -/
def Tag.get_object_hash (kvlm : KvlmMap) : Option Bytes :=
  (kvlmGet kvlm (some (bytesOf "object"))).bind List.head?

namespace GitrsObject

/-- The loop in the final arm of `GitrsObject::resolve`: try
`refs/tags/<name>`, `refs/heads/<name>`, `refs/remotes/<name>` in order,
keeping every namespace that resolves. -/
def collectRefCandidates (repo : Repository) (fuel : Nat) (name : Bytes) :
    List Bytes → ROut (List Bytes)
  | [] => ROut.ok []
  | ns :: rest =>
    match Ref.resolve repo fuel [bytesOf "refs", ns, name] with
    | ROut.ok r =>
      match collectRefCandidates repo fuel name rest with
      | ROut.ok l => ROut.ok (r :: l)
      | other => other
    | ROut.err _ => collectRefCandidates repo fuel name rest
    | ROut.panicked => ROut.panicked

/-- `GitrsObject::resolve`: empty (after trim) is an error; `HEAD` goes
through the reference store; a name whose characters are all ASCII hex
digits is treated as a digest prefix — `&name[..2]` panics when the name
is shorter than 2 bytes — and matched against the entries of
`objects/<2>`, keeping `dir ++ file` for every file name starting with
the remaining characters; any other name is tried as a tag, a local
branch and a remote branch. -/
def resolve (repo : Repository) (name : Bytes) (fuel : Nat) : ROut (List Bytes) :=
  if trimAscii name = [] then ROut.err RErr.otherErr
  else if name = bytesOf "HEAD" then
    match Ref.resolve repo fuel [bytesOf "HEAD"] with
    | ROut.ok d => ROut.ok [d]
    | ROut.err e => ROut.err e
    | ROut.panicked => ROut.panicked
  else if name.all isAsciiHexdigitByte then
    if name.length < 2 then ROut.panicked
    else
      let dir := asciiLowercase (name.take 2)
      let pfx := asciiLowercase (name.drop 2)
      match repo.readDirAt [bytesOf "objects", dir] with
      | ROut.panicked => ROut.panicked
      | ROut.err _ => ROut.err RErr.notFound
      | ROut.ok entries =>
        ROut.ok (entries.filterMap (fun e =>
          let file := utf8Lossy e.1
          if pfx.isPrefixOf file then some (dir ++ file) else none))
  else
    collectRefCandidates repo fuel name [bytesOf "tags", bytesOf "heads", bytesOf "remotes"]

/-- `GitrsObject::find_with_options`: read the object; accept it when its
type matches, else fail unless following is enabled; follow a commit to
its tree (when a tree is requested) or a tag to its target. -/
def find_with_options (repo : Repository) : Nat → Bytes → ObjectFindOptions → ROut Bytes
  | 0, _, _ => ROut.panicked
  | fuel + 1, sha, options =>
    match GitrsObject.read repo sha with
    | ROut.panicked => ROut.panicked
    | ROut.err e => ROut.err e
    | ROut.ok obj =>
      if obj.get_type = options.object_type then ROut.ok sha
      else if !options.should_follow then ROut.err RErr.typeErr
      else
        match obj with
        | commitObject kvlm =>
          if options.object_type = ObjectType.tree then
            match Commit.get_tree_hash kvlm with
            | some h => find_with_options repo fuel h options
            | none => ROut.panicked
          else ROut.err RErr.typeErr
        | tagObject kvlm =>
          match Tag.get_object_hash kvlm with
          | some h => find_with_options repo fuel h options
          | none => ROut.panicked
        | _ => ROut.err RErr.typeErr

/-- `GitrsObject::find`: resolve the name to candidate digests, then
dispatch on their number — zero is an error, one is the result (possibly
refined through `find_with_options`), several is the `Ambiguous` error
carrying all candidates. -/
def find (repo : Repository) (name : Bytes) (options : Option ObjectFindOptions)
    (fuel : Nat) : ROut Bytes :=
  match resolve repo name fuel with
  | ROut.panicked => ROut.panicked
  | ROut.err e => ROut.err e
  | ROut.ok shas =>
    match shas with
    | [] => ROut.err RErr.notFound
    | [sha] =>
      match options with
      | some opts => find_with_options repo fuel sha opts
      | none => ROut.ok sha
    | _ => ROut.err (RErr.ambiguous shas)

end GitrsObject

/-! ## Checkout (`Tree::checkout`) -/

/-- A filesystem action performed by `Tree::checkout` in the destination
working tree (which is outside the repository metadata directory, so it
is recorded as an effect rather than applied to `Repository`). -/
inductive FsEffect where
  | mkdir (path : List Bytes)
  | writeFile (path : List Bytes) (content : Bytes)
deriving DecidableEq

namespace Tree

/-- The per-record loop of `Tree::checkout`, parameterised over the
recursion (`recur`) into a subtree's records: a tree entry creates the
destination subdirectory and recurses, a blob entry writes its bytes,
anything else is an error.  The effect list is produced only on full
success (the claims proved about checkout only concern the success and
failure outcomes; the code performs effects eagerly and does not clean
up on failure). -/
def checkoutFold (repo : Repository)
    (recur : List Leaf → List Bytes → ROut (List FsEffect))
    (dest : List Bytes) : List Leaf → ROut (List FsEffect)
  | [] => ROut.ok []
  | record :: rest =>
    match GitrsObject.read repo record.hash with
    | ROut.panicked => ROut.panicked
    | ROut.err e => ROut.err e
    | ROut.ok (GitrsObject.treeObject records') =>
      match recur records' (dest ++ [record.path]) with
      | ROut.ok subEffects =>
        match checkoutFold repo recur dest rest with
        | ROut.ok effects =>
          ROut.ok (FsEffect.mkdir (dest ++ [record.path]) :: subEffects ++ effects)
        | other => other
      | other => other
    | ROut.ok (GitrsObject.blobObject data) =>
      match checkoutFold repo recur dest rest with
      | ROut.ok effects => ROut.ok (FsEffect.writeFile (dest ++ [record.path]) data :: effects)
      | other => other
    | ROut.ok _ => ROut.err RErr.typeErr

/-- One level of `Tree::checkout`'s recursion; fuel bounds the subtree
nesting depth. -/
def checkoutLevel (repo : Repository) : Nat → List Leaf → List Bytes → ROut (List FsEffect)
  | 0, _, _ => ROut.panicked
  | fuel + 1, records, dest => checkoutFold repo (checkoutLevel repo fuel) dest records

/-- `Tree::checkout` at the top level. -/
def checkout (repo : Repository) (records : List Leaf) (dest : List Bytes)
    (fuel : Nat) : ROut (List FsEffect) :=
  checkoutLevel repo fuel records dest

end Tree

/-! ## The index codec (`src/index.rs`) -/

/-- An index entry.  `mtime` is a `SystemTime`, modelled as a signed
number of whole seconds relative to the Unix epoch; `sha` is the
40-character hex string; `path` the `PathBuf` bytes. -/
structure IndexEntry where
  mtime : Int
  sha : Bytes
  size_in_bytes : Nat
  path : Bytes
deriving DecidableEq

namespace IndexEntry

/-- `IndexEntry::system_time_to_secs`: seconds since the epoch, or — for
a time before the epoch — the magnitude of the distance to the epoch
(`unwrap_or_else(|e| Duration::from_secs(0) + e.duration())`); never
panics. -/
def system_time_to_secs (t : Int) : Nat := t.natAbs

/-- `IndexEntry::secs_to_system_time`: `UNIX_EPOCH + secs`. -/
def secs_to_system_time (secs : Nat) : Int := (secs : Int)

/-- `IndexEntry::to_bytes`: 8-byte big-endian seconds, 20 raw digest
bytes, 8-byte big-endian size, 2-byte big-endian path length, path bytes.
`none` models the panics: a non-hex or non-20-byte digest
(`expect`/`assert_eq!`) and a path longer than 65535 bytes
(`u16::try_from(...).expect(...)`). -/
def to_bytes (e : IndexEntry) : Option Bytes :=
  match hexDecode e.sha with
  | none => none
  | some rawSha =>
    if rawSha.length = 20 then
      let pathBytes := utf8Lossy e.path
      if pathBytes.length < 65536 then
        some (toBytesBE 8 (system_time_to_secs e.mtime) ++ rawSha ++
          toBytesBE 8 e.size_in_bytes ++ toBytesBE 2 pathBytes.length ++ pathBytes)
      else none
    else none

/-- `IndexEntry::take_from`: consume one entry from the buffer, returning
the entry and the rest.  `none` covers both the too-short-buffer `None`
returns and the `from_utf8(...).unwrap()` panic on a non-UTF-8 path. -/
def take_from (buf : Bytes) : Option (IndexEntry × Bytes) :=
  if buf.length < 8 + 20 + 8 + 2 then none
  else
    let secs := fromBytesBE (buf.take 8)
    let afterTime := buf.drop 8
    let shaHex := hexEncode (afterTime.take 20)
    let afterSha := afterTime.drop 20
    let size := fromBytesBE (afterSha.take 8)
    let afterSize := afterSha.drop 8
    let pathLen := fromBytesBE (afterSize.take 2)
    let afterLen := afterSize.drop 2
    if afterLen.length < pathLen then none
    else if isValidUtf8 (afterLen.take pathLen) then
      some ({ mtime := secs_to_system_time secs, sha := shaHex,
              size_in_bytes := size, path := afterLen.take pathLen },
            afterLen.drop pathLen)
    else none

end IndexEntry

namespace Index

/-- The byte image `Index::write` produces: `"DIRC"`, version 2, entry
count (`len as u32`), then each entry's bytes.  `none` models an entry
serialization panic. -/
def writeBytes (entries : List IndexEntry) : Option Bytes :=
  match entries.mapM IndexEntry.to_bytes with
  | some chunks =>
    some (bytesOf "DIRC" ++ toBytesBE 4 2 ++ toBytesBE 4 entries.length ++ chunks.flatten)
  | none => none

/-- The entry-reading loop of `Index::read`. -/
def readEntriesGo : Nat → Bytes → List IndexEntry → Option (List IndexEntry)
  | 0, _, acc => some acc
  | n + 1, buf, acc =>
    match IndexEntry.take_from buf with
    | some (e, rest) => readEntriesGo n rest (acc ++ [e])
    | none => none

/-- `Index::read` on a present index file's bytes: reject a short file, a
wrong magic or an unsupported version without reading entries; otherwise
read `count` entries.  Returns the version and the entries. -/
def readBytes (data : Bytes) : Option (Nat × List IndexEntry) :=
  if data.length < 12 then none
  else if data.take 4 ≠ bytesOf "DIRC" then none
  else
    let afterSig := data.drop 4
    let version := fromBytesBE (afterSig.take 4)
    if version ≠ 2 then none
    else
      let afterVer := afterSig.drop 4
      let count := fromBytesBE (afterVer.take 4)
      match readEntriesGo count (afterVer.drop 4) [] with
      | some entries => some (version, entries)
      | none => none

end Index

/-! ## The ignore matcher (`src/ignore.rs`)

`glob::Pattern` is modelled for the pattern fragment the rules in this
development use: literal characters and single `*` wildcards (no `?`,
no `[...]` classes, no `**`).  Matching follows the crate's default
`MatchOptions`: `require_literal_separator = false`, so `*` also matches
`/`; matching is against the entire string. -/

/-- A `glob::Pattern` token. -/
inductive GlobTok where
  | char (c : Nat)
  | anySeq
deriving DecidableEq

/-- `glob::Pattern::new` on the modelled fragment. -/
def parseGlob : Bytes → List GlobTok
  | [] => []
  | 42 :: rest => GlobTok.anySeq :: parseGlob rest
  | b :: rest => GlobTok.char b :: parseGlob rest

/-- Fuel-indexed matcher behind `globMatch` (fuel larger than
`toks.length + s.length` is always sufficient: every step shortens the
pattern or the string). -/
def globMatchGo : Nat → List GlobTok → Bytes → Bool
  | 0, _, _ => false
  | _ + 1, [], s => s.isEmpty
  | fuel + 1, GlobTok.char c :: toks, s =>
    match s with
    | [] => false
    | b :: rest => b = c && globMatchGo fuel toks rest
  | fuel + 1, GlobTok.anySeq :: toks, s =>
    globMatchGo fuel toks s ||
      (match s with
       | [] => false
       | _ :: rest => globMatchGo fuel (GlobTok.anySeq :: toks) rest)

/-- `glob::Pattern::matches` (default options): full-string match, `*`
matching any sequence including separators. -/
def globMatch (toks : List GlobTok) (s : Bytes) : Bool :=
  globMatchGo (toks.length + s.length + 1) toks s

/-- `glob::Pattern::matches_path`: `path.to_str()` then match (`false`
for a non-UTF-8 path). -/
def globMatchesPath (toks : List GlobTok) (path : Bytes) : Bool :=
  isValidUtf8 path && globMatch toks path

/-- `MatchKind`. -/
inductive MatchKind where
  | Include
  | Exclude
deriving DecidableEq

/-- An `IgnoreRule`: a compiled glob pattern and its verdict. -/
structure IgnoreRule where
  pat : List GlobTok
  kind : MatchKind
deriving DecidableEq

namespace IgnoreRule

/-- `IgnoreRule::parse`: trim the line; drop blank lines and `#`
comments; a leading `!` gives an Include rule for the remainder, a
leading `\` an Exclude rule for the remainder (escaping the operator),
anything else an Exclude rule for the whole trimmed line. -/
def parse (raw : Bytes) : Option IgnoreRule :=
  let trimmed := trimAscii raw
  match trimmed with
  | [] => none
  | 35 :: _ => none
  | 33 :: rest => some { pat := parseGlob rest, kind := MatchKind.Include }
  | 92 :: rest => some { pat := parseGlob rest, kind := MatchKind.Exclude }
  | _ => some { pat := parseGlob trimmed, kind := MatchKind.Exclude }

end IgnoreRule

namespace IgnoreRules

/-- `IgnoreRules::matches_rules`: the first rule whose pattern matches
the full path decides, in source order. -/
def matches_rules (rules : List IgnoreRule) (path : Bytes) : Option MatchKind :=
  match rules with
  | [] => none
  | r :: rest =>
    if globMatchesPath r.pat path then some r.kind else matches_rules rest path

/-- `Path::parent` on a slash-joined byte path: strip the last
component; the parent of a single component is the empty path, which has
no parent. -/
def parentPath (p : Bytes) : Option Bytes :=
  if p = [] then none
  else
    match firstIdx (· == 47) p.reverse with
    | some i => some (p.take (p.length - 1 - i))
    | none => some []

/-- Fuel-indexed ancestor walker behind `ancestors` (each parent is
strictly shorter, so fuel beyond the length is always sufficient). -/
def ancestorsGo : Nat → Bytes → List Bytes
  | 0, _ => []
  | fuel + 1, p =>
    match parentPath p with
    | none => []
    | some q => q :: ancestorsGo fuel q

/-- The ancestor chain `std::iter::successors(path.parent(), |p|
p.parent())`. -/
def ancestors (p : Bytes) : List Bytes := ancestorsGo (p.length + 1) p

/-- The per-directory rule table (`IgnoreRules::relative`), an
association from a directory path to its ordered rule list. -/
abbrev RuleTable := List (Bytes × List IgnoreRule)

/-- `HashMap::get` on the rule table. -/
def tableGet (t : RuleTable) (k : Bytes) : Option (List IgnoreRule) :=
  match t with
  | [] => none
  | (k', v) :: rest => if k = k' then some v else tableGet rest k

/-- `IgnoreRules::check`: walk the ancestors of the path from its
immediate parent upward; at the first ancestor whose rule set yields a
match, return that verdict. -/
def check (relative : RuleTable) (path : Bytes) : Option MatchKind :=
  (ancestors path).findSome? (fun parent =>
    match tableGet relative parent with
    | some rules => matches_rules rules path
    | none => none)

end IgnoreRules

/-! ## Well-formedness predicates and specification-side functions -/

/-- Did the call return a value (rather than an error or a panic)? -/
def ROut.isOk : ROut α → Bool
  | ROut.ok _ => true
  | _ => false

/-- Are the entry names of a directory pairwise distinct?  (True of every
real directory; `findEntry` finds the unique entry.) -/
def nodupKeys : FsEntries → Bool
  | [] => true
  | (k, _) :: rest => !(findEntry k rest).isSome && nodupKeys rest

/-- Well-formedness of the object store area: if `objects` exists it is a
directory whose entries are directories with distinct 2-character
lower-hex names, each containing entries with 38-character lower-hex
names — the layout `GitrsObject::write` produces (`objects/<2>/<38>`
splits of 40-hex digests). -/
def wfObjects (repo : Repository) : Bool :=
  match findEntry (bytesOf "objects") repo.gitdir with
  | none => true
  | some (FsNode.file _) => false
  | some (FsNode.dir es) =>
    nodupKeys es &&
    es.all (fun e =>
      e.1.length = 2 && e.1.all isLowerHexDigit &&
      (match e.2 with
       | FsNode.file _ => false
       | FsNode.dir es2 =>
         es2.all (fun f => f.1.length = 38 && f.1.all isLowerHexDigit)))

/-- The digests of all stored objects: `<dir-name><file-name>` for every
file of every subdirectory of `objects` (the claims' "stored objects"). -/
def storedObjectDigests (repo : Repository) : List Bytes :=
  match findEntry (bytesOf "objects") repo.gitdir with
  | some (FsNode.dir es) =>
    es.flatMap (fun e =>
      match e.2 with
      | FsNode.dir es2 => es2.map (fun f => e.1 ++ f.1)
      | FsNode.file _ => [])
  | _ => []

/-- The value `Ref::resolve` returns for a file holding a plain digest:
the content with one trailing newline stripped. -/
def plainRefValue (content : Bytes) : Bytes :=
  if content.getLast? = some 10 then content.dropLast else content

/-- Does a reference file resolve directly (valid UTF-8, no `ref:`
indirection)? -/
def plainRefContent (content : Bytes) : Bool :=
  isValidUtf8 (plainRefValue content) &&
    !((bytesOf "ref:").isPrefixOf (plainRefValue content))

/-- One level of the plain-reference-directory predicate, parameterised
over the check (`recur`) of a subdirectory's entries: entry names are
valid UTF-8 and pairwise distinct at this level, and each file both
resolves directly and has resolution fuel left (`rfuelOk`, mirroring the
fuel `Ref::list_at_dir` hands `Ref::resolve` at this level). -/
def plainRefsFold (rfuelOk : Bool) (recur : FsEntries → Bool) : FsEntries → Bool
  | [] => true
  | (n, FsNode.file c) :: rest =>
    rfuelOk && isValidUtf8 n && !(findEntry n rest).isSome && plainRefContent c &&
      plainRefsFold rfuelOk recur rest
  | (n, FsNode.dir es2) :: rest =>
    isValidUtf8 n && !(findEntry n rest).isSome && recur es2 &&
      plainRefsFold rfuelOk recur rest

/-- A reference directory whose entry names are valid UTF-8 and pairwise
distinct at each level and whose files all resolve directly, nested
shallowly enough that `fuel` units of listing fuel cover it. -/
def plainRefsLevel : Nat → FsEntries → Bool
  | 0, _ => false
  | fuel + 1, es => plainRefsFold (decide (1 ≤ fuel)) (plainRefsLevel fuel) es

/-- The specification-side reference listing: visit the entries of each
level in lexicographic filename order; a file contributes one pair —
the slash-join of the listed directory's path segments and the descent
path, mapped to the file's trimmed digest — and a subdirectory
contributes its own listing at its position in the sorted order.  (Fuel
mirrors `Ref::list_at_dir`; it is irrelevant whenever it exceeds the
nesting depth.) -/
def specRefList : Nat → List Bytes → FsEntries → List (Bytes × Bytes)
  | 0, _, _ => []
  | fuel + 1, path, es =>
    (Ref.sortEntries es).flatMap (fun e =>
      match e with
      | (n, FsNode.file c) => [(joinWith [47] (path ++ [n]), plainRefValue c)]
      | (n, FsNode.dir es2) => specRefList fuel (path ++ [n]) es2)

/-! ## Concrete inputs used by the claim theorems -/

/-- The empty repository metadata directory. -/
def repoEmpty : Repository := { gitdir := [] }

/-- C2's well-formed KVLM input: one header line and a message body. -/
def c2Raw : Bytes := bytesOf "a b\n\nm"

/-- C1's commit-kind payload: one header line and a message body. -/
def c1Payload : Bytes := bytesOf "a b\n\nm"

/-- The KVLM map `Kvlm::parse` produces for `c1Payload` (the value keeps
its trailing newline). -/
def c1Map : KvlmMap := [(some (bytesOf "a"), [bytesOf "b\n"]), (none, [bytesOf "m"])]

/-- The KVLM map parsed back from the re-serialized form of `c1Map`. -/
def c1ReadMap : KvlmMap := [(some (bytesOf "a"), [bytesOf "b\n\n"]), (none, [bytesOf "m"])]

/-- C3's tree entry: a 6-character blob mode, a one-byte path and a
40-character hex digest, as every digest in the system is written. -/
def c3Leaf : Leaf :=
  { file_mode := bytesOf "100644", path := bytesOf "a",
    hash := bytesOf "0123456789abcdef0123456789abcdef01234567" }

/-- C4's stored tree payload: one blob entry `hello.txt` whose 20 raw
digest bytes `h` follow the NUL. -/
def c4TreeBytes (h : Bytes) : Bytes := bytesOf "100644 hello.txt" ++ 0 :: h

/-- C4's parsed tree entry for digest bytes `h`. -/
def c4Leaf (h : Bytes) : Leaf :=
  { file_mode := bytesOf "100644", path := bytesOf "hello.txt",
    hash := utf8Lossy h }

/-- The header-framed payload of the blob holding `b"hi"`. -/
def c4BlobPayload : Bytes := bytesOf "blob 2" ++ 0 :: bytesOf "hi"

/-- C4's raw digest bytes: `hex::decode` of the digest of forty `a`s. -/
def c4H : Bytes := List.replicate 20 170

/-- C4's tree entry as the program itself builds it before serializing:
the digest held as its 40-character hex string. -/
def c4StoredLeaf : Leaf :=
  { file_mode := bytesOf "100644", path := bytesOf "hello.txt",
    hash := List.replicate 40 97 }

/-- The header-framed payload of a tree stored in the on-disk form
`Leaf::parse` expects: 20 raw digest bytes after the NUL
(`c4TreeBytes c4H` is 37 bytes long). -/
def c4TreePayload : Bytes := bytesOf "tree 37" ++ 0 :: c4TreeBytes c4H

/-- C4's witness repository: the blob `b"hi"` stored under the digest of
forty `a`s and the raw-digest tree stored under a digest of forty `b`s,
both at well-formed `objects/<2>/<38>` paths. -/
def repoC4 : Repository :=
  { gitdir := [(bytesOf "objects", FsNode.dir
      [(bytesOf "aa", FsNode.dir
        [(List.replicate 38 97, FsNode.file c4BlobPayload)]),
       (bytesOf "bb", FsNode.dir
        [(List.replicate 38 98, FsNode.file c4TreePayload)])])] }

/-- C6's witness repository: three stored objects, two of them sharing
the digest prefix `ab00`. -/
def repoC6 : Repository :=
  { gitdir := [(bytesOf "objects", FsNode.dir
      [(bytesOf "ab", FsNode.dir
        [(List.replicate 37 48 ++ [49], FsNode.file []),
         (List.replicate 37 48 ++ [50], FsNode.file []),
         ([49, 49] ++ List.replicate 35 48 ++ [50], FsNode.file [])])])] }

/-- C7/C10's entry with a lower-case hex digest. -/
def c7Entry : IndexEntry :=
  { mtime := 100, sha := bytesOf "0123456789abcdef0123456789abcdef01234567",
    size_in_bytes := 2, path := bytesOf "a.txt" }

/-- C7's entry with an upper-case (still valid hex) digest. -/
def c7EntryUpper : IndexEntry :=
  { mtime := 100, sha := bytesOf "0123456789ABCDEF0123456789ABCDEF01234567",
    size_in_bytes := 2, path := bytesOf "a.txt" }

/-- C10's entry: a modification time five seconds before the Unix epoch. -/
def c10Entry : IndexEntry :=
  { mtime := -5, sha := bytesOf "0123456789abcdef0123456789abcdef01234567",
    size_in_bytes := 2, path := bytesOf "a.txt" }

/-- The raw bytes of `c10Entry`'s digest. -/
def c10Raw : Bytes :=
  [1, 35, 69, 103, 137, 171, 205, 239, 1, 35, 69, 103, 137, 171, 205, 239,
   1, 35, 69, 103]

/-- C8's first rule, parsed from the line `*.log` (an Exclude pattern). -/
def c8Rule1 : IgnoreRule :=
  { pat := parseGlob (bytesOf "*.log"), kind := MatchKind.Exclude }

/-- C8's second rule, parsed from the line `!keep.log` (an Include
pattern). -/
def c8Rule2 : IgnoreRule :=
  { pat := parseGlob (bytesOf "keep.log"), kind := MatchKind.Include }

/-- C8's rule table: directory `a/b` holds `*.log` then `!keep.log`. -/
def c8Table : IgnoreRules.RuleTable := [(bytesOf "a/b", [c8Rule1, c8Rule2])]

/-- C9's reference directory: `refs` holds a subdirectory `a` (with one
file `x`) and a file `b`, so lexicographic order visits `a` before `b`. -/
def repoC9 : Repository :=
  { gitdir := [(bytesOf "refs", FsNode.dir
      [(bytesOf "b", FsNode.file (bytesOf "D2\n")),
       (bytesOf "a", FsNode.dir [(bytesOf "x", FsNode.file (bytesOf "D1\n"))])])] }

/-- The entries of `repoC9`'s `refs` directory. -/
def refsC9 : FsEntries :=
  [(bytesOf "b", FsNode.file (bytesOf "D2\n")),
   (bytesOf "a", FsNode.dir [(bytesOf "x", FsNode.file (bytesOf "D1\n"))])]

/-! # Theorems -/

/-! ## Helper lemmas: decimal digits -/

theorem toDecimalGo_irrel : ∀ f1 f2 n, n < f1 → n < f2 →
    toDecimalGo f1 n = toDecimalGo f2 n := by
  intro f1
  induction f1 with
  | zero => intro f2 n h1; omega
  | succ f ih =>
    intro f2 n h1 h2
    cases f2 with
    | zero => omega
    | succ f2' =>
      simp only [toDecimalGo]
      by_cases h10 : n < 10
      · rw [if_pos h10, if_pos h10]
      · rw [if_neg h10, if_neg h10]
        have hd : n / 10 < n := Nat.div_lt_self (by omega) (by omega)
        rw [ih f2' (n / 10) (by omega) (by omega)]

theorem toDecimalGo_digits : ∀ fuel n, n < fuel →
    ∀ b ∈ toDecimalGo fuel n, 48 ≤ b ∧ b ≤ 57 := by
  intro fuel
  induction fuel with
  | zero => intro n h; omega
  | succ f ih =>
    intro n h b hb
    simp only [toDecimalGo] at hb
    by_cases h10 : n < 10
    · rw [if_pos h10] at hb
      simp at hb
      omega
    · rw [if_neg h10] at hb
      have hd : n / 10 < n := Nat.div_lt_self (by omega) (by omega)
      rcases List.mem_append.mp hb with hl | hr
      · exact ih (n / 10) (by omega) b hl
      · simp at hr
        have := Nat.mod_lt n (show 0 < 10 by omega)
        omega

theorem toDecimalGo_ne_nil : ∀ fuel n, n < fuel → toDecimalGo fuel n ≠ [] := by
  intro fuel
  cases fuel with
  | zero => intro n h; omega
  | succ f =>
    intro n h
    simp only [toDecimalGo]
    by_cases h10 : n < 10
    · rw [if_pos h10]; simp
    · rw [if_neg h10]; simp

theorem toDecimalGo_foldl : ∀ fuel n acc, n < fuel →
    (toDecimalGo fuel n).foldl (fun acc b => acc * 10 + (b - 48)) acc =
      acc * 10 ^ (toDecimalGo fuel n).length + n := by
  intro fuel
  induction fuel with
  | zero => intro n acc h; omega
  | succ f ih =>
    intro n acc h
    simp only [toDecimalGo]
    by_cases h10 : n < 10
    · rw [if_pos h10]
      simp only [List.foldl, List.length_cons, List.length_nil, pow_one, pow_zero]
      omega
    · rw [if_neg h10]
      have hd : n / 10 < n := Nat.div_lt_self (by omega) (by omega)
      rw [List.foldl_append, ih (n / 10) acc (by omega)]
      simp only [List.foldl, List.length_append, List.length_cons, List.length_nil]
      have hmod : n % 10 < 10 := Nat.mod_lt n (by omega)
      have : 48 + n % 10 - 48 = n % 10 := by omega
      rw [this, pow_succ]
      have := Nat.div_add_mod n 10
      ring_nf
      omega

theorem toDecimal_digits : ∀ b ∈ toDecimal n, 48 ≤ b ∧ b ≤ 57 :=
  fun b hb => toDecimalGo_digits (n + 1) n (by omega) b hb

theorem parseDecimal_toDecimal (n : Nat) : parseDecimal (toDecimal n) = some n := by
  unfold parseDecimal toDecimal
  rw [if_neg (by simpa using toDecimalGo_ne_nil (n + 1) n (by omega))]
  rw [if_pos ?hall]
  case hall =>
    rw [List.all_eq_true]
    intro b hb
    have := toDecimalGo_digits (n + 1) n (by omega) b hb
    simp [isDigitByte]
    omega
  rw [toDecimalGo_foldl (n + 1) n 0 (by omega)]
  simp

/-! ## Helper lemmas: byte search, big-endian, hex -/

theorem firstIdx_append_hit {p : Nat → Bool} {l : Bytes} {x : Nat} {r : Bytes}
    (hl : ∀ b ∈ l, p b = false) (hx : p x = true) :
    firstIdx p (l ++ x :: r) = some l.length := by
  induction l with
  | nil => simp [firstIdx, hx]
  | cons a l' ih =>
    have ha : p a = false := hl a (by simp)
    have ih' := ih (fun b hb => hl b (by simp [hb]))
    simp [firstIdx, ha, ih']

theorem toBytesBE_length (k n : Nat) : (toBytesBE k n).length = k := by
  induction k generalizing n with
  | zero => simp [toBytesBE]
  | succ k' ih => simp [toBytesBE, ih]

theorem toBytesBE_lt (k n : Nat) : ∀ b ∈ toBytesBE k n, b < 256 := by
  induction k generalizing n with
  | zero => simp [toBytesBE]
  | succ k' ih =>
    intro b hb
    simp only [toBytesBE] at hb
    rcases List.mem_append.mp hb with hl | hr
    · exact ih (n / 256) b hl
    · simp at hr
      subst hr
      exact Nat.mod_lt _ (by omega)

theorem fromBytesBE_append_one (l : Bytes) (b : Nat) :
    fromBytesBE (l ++ [b]) = 256 * fromBytesBE l + b := by
  unfold fromBytesBE
  rw [List.foldl_append]
  simp [Nat.mul_comm]

theorem fromBytesBE_toBytesBE {k n : Nat} (h : n < 256 ^ k) :
    fromBytesBE (toBytesBE k n) = n := by
  induction k generalizing n with
  | zero =>
    simp [toBytesBE, fromBytesBE]
    omega
  | succ k' ih =>
    simp only [toBytesBE]
    rw [fromBytesBE_append_one, ih (by
      have h1 : 256 ^ (k' + 1) = 256 * 256 ^ k' := by ring
      rw [h1] at h
      exact Nat.div_lt_of_lt_mul h)]
    omega


theorem hexVal_le {b v : Nat} (h : hexVal b = some v) : v ≤ 15 := by
  unfold hexVal at h
  repeat' split at h
  all_goals simp_all [Bool.and_eq_true, decide_eq_true_eq]
  all_goals omega

theorem hexVal_lower_isSome {b : Nat} (hb : isLowerHexDigit b = true) :
    ∃ v, hexVal b = some v := by
  unfold isLowerHexDigit at hb
  simp only [Bool.or_eq_true, Bool.and_eq_true, decide_eq_true_eq] at hb
  unfold hexVal
  rcases hb with h | h
  · exact ⟨b - 48, by rw [if_pos (by simp only [Bool.and_eq_true, decide_eq_true_eq]; omega)]⟩
  · refine ⟨b - 87, ?_⟩
    rw [if_neg (by simp only [Bool.and_eq_true, decide_eq_true_eq]; omega)]
    rw [if_pos (by simp only [Bool.and_eq_true, decide_eq_true_eq]; omega)]

theorem hexVal_lower_inverse {b v : Nat} (hb : isLowerHexDigit b = true)
    (h : hexVal b = some v) : hexDigitLower v = b := by
  unfold isLowerHexDigit at hb
  simp only [Bool.or_eq_true, Bool.and_eq_true, decide_eq_true_eq] at hb
  unfold hexVal at h
  unfold hexDigitLower
  repeat' split at h
  all_goals simp_all [Bool.and_eq_true, decide_eq_true_eq]
  all_goals split
  all_goals omega

theorem hexDecode_lower : ∀ s : Bytes, (∀ b ∈ s, isLowerHexDigit b = true) →
    s.length % 2 = 0 →
    ∃ r, hexDecode s = some r ∧ 2 * r.length = s.length ∧ hexEncode r = s := by
  intro s
  induction s using hexDecode.induct with
  | case1 =>
    intro _ _
    exact ⟨[], by simp [hexDecode, hexEncode]⟩
  | case2 x =>
    intro _ hlen
    simp at hlen
  | case3 h l rest ih =>
    intro hall hlen
    obtain ⟨hi, hhi⟩ := hexVal_lower_isSome (hall h (by simp))
    obtain ⟨lo, hlo⟩ := hexVal_lower_isSome (hall l (by simp))
    obtain ⟨tail, htail, htlen, htenc⟩ :=
      ih (fun b hb => hall b (by simp [hb])) (by simp at hlen ⊢; omega)
    refine ⟨(hi * 16 + lo) :: tail, ?_, by simp at hlen ⊢; omega, ?_⟩
    · simp [hexDecode, hhi, hlo, htail]
    · have hlo15 := hexVal_le hlo
      have hdiv : (hi * 16 + lo) / 16 = hi := by omega
      have hmod : (hi * 16 + lo) % 16 = lo := by omega
      simp only [hexEncode, hdiv, hmod, htenc]
      rw [hexVal_lower_inverse (hall h (by simp)) hhi,
          hexVal_lower_inverse (hall l (by simp)) hlo]

/-! ## Helper lemmas: UTF-8 -/

theorem utf8SeqLen_pos {l : Bytes} {k : Nat} (h : utf8SeqLen l = some k) : 1 ≤ k := by
  unfold utf8SeqLen at h
  repeat' split at h
  all_goals simp_all
  all_goals omega

theorem utf8SeqLen_ascii {b : Nat} {rest : Bytes} (hb : b ≤ 127) :
    utf8SeqLen (b :: rest) = some 1 := by
  simp only [utf8SeqLen]
  rw [if_pos hb]

theorem utf8SeqLen_eq_one {b k : Nat} {rest : Bytes} (hb : b ≤ 127)
    (h : utf8SeqLen (b :: rest) = some k) : k = 1 := by
  rw [utf8SeqLen_ascii hb] at h
  injection h with h
  omega

theorem utf8LossyGo_ascii_output : ∀ fuel (l : Bytes), l.length < fuel →
    (∀ b ∈ utf8LossyGo fuel l, b ≤ 127) → utf8LossyGo fuel l = l := by
  intro fuel
  induction fuel with
  | zero => intro l h; omega
  | succ f ih =>
    intro l hlen hout
    cases l with
    | nil => rfl
    | cons b rest =>
      cases hseq : utf8SeqLen (b :: rest) with
      | some k =>
        simp only [utf8LossyGo, hseq] at hout ⊢
        have hk := utf8SeqLen_pos hseq
        have hb : b ≤ 127 := by
          apply hout b
          cases k with
          | zero => omega
          | succ k' => simp
        have hk1 : k = 1 := utf8SeqLen_eq_one hb hseq
        subst hk1
        simp only [List.take, List.drop] at hout ⊢
        have hrest : utf8LossyGo f rest = rest := by
          apply ih rest (by simp at hlen; omega)
          intro x hx
          exact hout x (by simp [hx])
        simp [hrest]
      | none =>
        simp only [utf8LossyGo, hseq] at hout
        exact absurd (hout 239 (by simp [replacementBytes])) (by omega)

theorem utf8Lossy_ascii_output {l : Bytes}
    (hout : ∀ b ∈ utf8Lossy l, b ≤ 127) : utf8Lossy l = l :=
  utf8LossyGo_ascii_output (l.length + 1) l (by omega) hout

theorem utf8LossyGo_of_valid : ∀ fuel (l : Bytes), isValidUtf8Go fuel l = true →
    utf8LossyGo fuel l = l := by
  intro fuel
  induction fuel with
  | zero => intro l h; simp [isValidUtf8Go] at h
  | succ f ih =>
    intro l hval
    cases l with
    | nil => rfl
    | cons b rest =>
      cases hseq : utf8SeqLen (b :: rest) with
      | some k =>
        simp only [isValidUtf8Go, hseq] at hval
        simp only [utf8LossyGo, hseq]
        have hk := utf8SeqLen_pos hseq
        cases k with
        | zero => omega
        | succ k' =>
          rw [ih _ hval]
          simp only [Nat.add_sub_cancel]
          have : List.take (k' + 1) (b :: rest) = b :: List.take k' rest := by simp
          rw [this]
          simp [List.take_append_drop]
      | none =>
        simp only [isValidUtf8Go, hseq] at hval
        exact absurd hval (by simp)

theorem utf8Lossy_of_valid {l : Bytes} (h : isValidUtf8 l = true) : utf8Lossy l = l :=
  utf8LossyGo_of_valid (l.length + 1) l h

theorem isValidUtf8Go_of_ascii : ∀ fuel (l : Bytes), l.length < fuel →
    (∀ b ∈ l, b ≤ 127) → isValidUtf8Go fuel l = true := by
  intro fuel
  induction fuel with
  | zero => intro l h; omega
  | succ f ih =>
    intro l hlen hall
    cases l with
    | nil => rfl
    | cons b rest =>
      simp only [isValidUtf8Go, utf8SeqLen_ascii (hall b (by simp))]
      simp only [Nat.sub_self, List.drop]
      exact ih rest (by simp at hlen; omega) (fun x hx => hall x (by simp [hx]))

theorem isValidUtf8_of_ascii {l : Bytes} (hall : ∀ b ∈ l, b ≤ 127) :
    isValidUtf8 l = true :=
  isValidUtf8Go_of_ascii (l.length + 1) l (by omega) hall

theorem utf8Lossy_of_ascii {l : Bytes} (hall : ∀ b ∈ l, b ≤ 127) : utf8Lossy l = l :=
  utf8Lossy_of_valid (isValidUtf8_of_ascii hall)

/-! ## Helper lemmas: filesystem model -/

theorem findEntry_append_of_none {n : Bytes} {es ys : FsEntries}
    (h : findEntry n es = none) : findEntry n (es ++ ys) = findEntry n ys := by
  induction es with
  | nil => simp
  | cons e rest ih =>
    obtain ⟨k, v⟩ := e
    simp only [findEntry] at h
    by_cases hk : n = k
    · rw [if_pos hk] at h; exact absurd h (by simp)
    · rw [if_neg hk] at h
      simp only [List.cons_append, findEntry, if_neg hk]
      exact ih h

theorem findEntry_replace {n : Bytes} {nd x : FsNode} {es : FsEntries}
    (h : findEntry n es = some x) :
    findEntry n (replaceEntry n nd es) = some nd := by
  induction es with
  | nil => simp [findEntry] at h
  | cons e rest ih =>
    obtain ⟨k, v⟩ := e
    simp only [findEntry] at h
    by_cases hk : n = k
    · simp [replaceEntry, if_pos hk, findEntry]
    · rw [if_neg hk] at h
      simp only [replaceEntry, if_neg hk, findEntry]
      exact ih h

theorem readGo_upsertDir : ∀ (path : List Bytes) (es : FsEntries) (v : Bytes)
    (es' : FsEntries), upsertDir es path v = some es' →
    Repository.readFileAt.go (FsNode.dir es') path = ROut.ok v := by
  intro path
  induction path with
  | nil => intro es v es' h; simp [upsertDir] at h
  | cons seg rest ih =>
    intro es v es' h
    cases rest with
    | nil =>
      simp only [upsertDir] at h
      cases hf : findEntry seg es with
      | none =>
        simp only [hf] at h
        simp only [Option.some.injEq] at h
        subst h
        have : findEntry seg (es ++ [(seg, FsNode.file v)]) = some (FsNode.file v) := by
          rw [findEntry_append_of_none hf]
          simp [findEntry]
        simp [Repository.readFileAt.go, this]
      | some nd =>
        cases nd with
        | file c =>
          simp only [hf] at h
          simp only [Option.some.injEq] at h
          subst h
          have := @findEntry_replace _ (FsNode.file v) _ _ hf
          simp [Repository.readFileAt.go, this]
        | dir es2 =>
          simp only [hf] at h
          exact Option.noConfusion h
    | cons r rs =>
      simp only [upsertDir] at h
      cases hf : findEntry seg es with
      | none =>
        simp only [hf] at h
        cases hrec : upsertDir [] (r :: rs) v with
        | none =>
          rw [hrec] at h
          exact Option.noConfusion h
        | some es2' =>
          simp only [hrec, Option.some.injEq] at h
          subst h
          have hfind : findEntry seg (es ++ [(seg, FsNode.dir es2')]) =
              some (FsNode.dir es2') := by
            rw [findEntry_append_of_none hf]
            simp [findEntry]
          rw [Repository.readFileAt.go.eq_def]
          simp only [hfind]
          exact ih [] v es2' hrec
      | some nd =>
        cases nd with
        | file c =>
          simp only [hf] at h
          exact Option.noConfusion h
        | dir es2 =>
          simp only [hf] at h
          cases hrec : upsertDir es2 (r :: rs) v with
          | none =>
            rw [hrec] at h
            exact Option.noConfusion h
          | some es2' =>
            simp only [hrec, Option.some.injEq] at h
            subst h
            have hfind := @findEntry_replace _ (FsNode.dir es2') _ _ hf
            rw [Repository.readFileAt.go.eq_def]
            simp only [hfind]
            exact ih es2 v es2' hrec

theorem readFileAt_upsertFile {repo repo' : Repository} {path : List Bytes} {data : Bytes}
    (h : repo.upsertFile path data = some repo') :
    repo'.readFileAt path = ROut.ok (zlibCompress data) := by
  unfold Repository.upsertFile at h
  cases hup : upsertDir repo.gitdir path (zlibCompress data) with
  | none => rw [hup] at h; simp at h
  | some es' =>
    rw [hup] at h
    simp only [Option.map_some', Option.some.injEq] at h
    subst h
    cases path with
    | nil => simp [upsertDir] at hup
    | cons s r =>
      show Repository.readFileAt.go (FsNode.dir es') (s :: r) = ROut.ok (zlibCompress data)
      exact readGo_upsertDir (s :: r) _ _ _ hup

/-! ## Helper lemmas: digest shape -/

theorem hexEncode_length (l : Bytes) : (hexEncode l).length = 2 * l.length := by
  induction l with
  | nil => simp [hexEncode]
  | cons b r ih =>
    simp only [hexEncode, List.length_cons, ih]
    omega

theorem sha1Bytes_length (msg : Bytes) : (sha1Bytes msg).length = 20 := by
  unfold sha1Bytes
  generalize (blocks64 (msg ++ [128] ++
    List.replicate ((64 + 55 - msg.length % 64) % 64) 0 ++
    toBytesBE 8 (8 * msg.length))).foldl sha1Block sha1Init = t
  obtain ⟨h0, h1, h2, h3, h4⟩ := t
  simp [toBytesBE_length]

theorem sha1Hex_length (msg : Bytes) : (sha1Hex msg).length = 40 := by
  unfold sha1Hex
  rw [hexEncode_length, sha1Bytes_length]

/-! ## Helper lemmas: object read-back -/

theorem objectType_tryFrom_toBytes (ot : ObjectType) :
    ObjectType.tryFrom ot.toBytes = some ot := by
  cases ot <;> decide

theorem objectType_toBytes_facts (ot : ObjectType) :
    ∀ b ∈ ot.toBytes, b ≤ 127 ∧ ¬b = 32 ∧ ¬b = 0 := by
  cases ot <;> decide

/-- Reading a digest whose stored payload is a well-formed
`"<type> <len>\x00<data>"` frame recovers the deserialization of `data`
(or panics when the variant parser panics). -/
theorem read_of_stored (repo : Repository) (sha : Bytes) (ot : ObjectType) (data : Bytes)
    (hsha : ¬sha.length < 2)
    (hstore : repo.readFileAt [bytesOf "objects", sha.take 2, sha.drop 2] =
      ROut.ok (ot.toBytes ++ [32] ++ toDecimal data.length ++ [0] ++ data)) :
    GitrsObject.read repo sha =
      match GitrsObject.deserialize data ot with
      | some o => ROut.ok o
      | none => ROut.panicked := by
  have hfacts := objectType_toBytes_facts ot
  have hds := @toDecimal_digits data.length
  set P := ot.toBytes with hPdef
  set D := toDecimal data.length with hDdef
  have e1 : P ++ [32] ++ D ++ [0] ++ data = P ++ 32 :: (D ++ 0 :: data) := by simp
  rw [e1] at hstore
  have h1 : firstIdx (· == 32) (P ++ 32 :: (D ++ 0 :: data)) =
      some P.length :=
    firstIdx_append_hit (fun b hb => by simp [(hfacts b hb).2.1]) (by simp)
  have h2 : firstIdxFrom (P ++ 32 :: (D ++ 0 :: data)) 0 P.length =
      some (D.length + 1 + P.length) := by
    unfold firstIdxFrom
    rw [show (P ++ 32 :: (D ++ 0 :: data)).drop P.length =
      32 :: (D ++ 0 :: data) from List.drop_left' rfl]
    rw [show (32 : Nat) :: (D ++ 0 :: data) = (32 :: D) ++ 0 :: data by simp]
    rw [firstIdx_append_hit (fun b hb => ?_) (by simp)]
    · simp
    · rcases List.mem_cons.mp hb with h32 | hbd
      · simp [h32]
      · have := hds b hbd
        simp
        omega
  have htake : (P ++ 32 :: (D ++ 0 :: data)).take P.length = P :=
    List.take_left' rfl
  have hvalid1 : isValidUtf8 P = true := isValidUtf8_of_ascii (fun b hb => (hfacts b hb).1)
  have hvalid2 : isValidUtf8 D = true :=
    isValidUtf8_of_ascii (fun b hb => by have := hds b hb; omega)
  have hslice : slice (P ++ 32 :: (D ++ 0 :: data))
      (P.length + 1) (D.length + 1 + P.length) = D := by
    unfold slice
    rw [show P ++ 32 :: (D ++ 0 :: data) =
      (P ++ [32]) ++ (D ++ 0 :: data) by simp]
    rw [List.drop_left' (by simp)]
    rw [show D.length + 1 + P.length - (P.length + 1) = D.length by omega]
    exact List.take_left' rfl
  have hparse : parseDecimal D = some data.length := by
    rw [hDdef]
    exact parseDecimal_toDecimal _
  have hcontent : (P ++ 32 :: (D ++ 0 :: data)).drop
      (D.length + 1 + P.length + 1) = data := by
    rw [show P ++ 32 :: (D ++ 0 :: data) =
      (P ++ 32 :: (D ++ [0])) ++ data by simp]
    rw [List.drop_left' (by simp; omega)]
  unfold GitrsObject.read
  rw [if_neg hsha, hstore]
  simp only [zlibDecompress, h1, h2, htake, hvalid1, hvalid2, hslice, hparse, hcontent,
    objectType_tryFrom_toBytes, if_true, eq_self_iff_true]
  rw [hPdef, objectType_tryFrom_toBytes]

/-- Storing a file under a three-segment path in an empty metadata
directory creates the two directories and the file. -/
theorem upsertFile_empty (a b c v : Bytes) :
    Repository.upsertFile ⟨[]⟩ [a, b, c] v =
      some ⟨[(a, FsNode.dir [(b, FsNode.dir [(c, FsNode.file (zlibCompress v))])])]⟩ := by
  simp [Repository.upsertFile, upsertDir, findEntry]

/-- Reading back the digest returned by `GitrsObject::write` yields the
deserialization of the written object's serialized payload. -/
theorem read_after_write (repo repo' : Repository) (obj : GitrsObject) (sha : Bytes)
    (h : GitrsObject.write repo obj = some (repo', sha)) :
    GitrsObject.read repo' sha =
      match GitrsObject.deserialize obj.serializeBytes obj.get_type with
      | some o => ROut.ok o
      | none => ROut.panicked := by
  simp only [GitrsObject.write] at h
  rcases hup : repo.upsertFile [bytesOf "objects",
      (sha1Hex (obj.get_type.toBytes ++ [32] ++ toDecimal obj.serializeBytes.length ++
        [0] ++ obj.serializeBytes)).take 2,
      (sha1Hex (obj.get_type.toBytes ++ [32] ++ toDecimal obj.serializeBytes.length ++
        [0] ++ obj.serializeBytes)).drop 2]
      (obj.get_type.toBytes ++ [32] ++ toDecimal obj.serializeBytes.length ++
        [0] ++ obj.serializeBytes) with _ | r2
  · rw [hup] at h
    exact Option.noConfusion h
  · rw [hup] at h
    simp only [Option.some.injEq, Prod.mk.injEq] at h
    obtain ⟨hrepo, hsha⟩ := h
    subst hrepo
    subst hsha
    apply read_of_stored
    · rw [sha1Hex_length]
      omega
    · have := readFileAt_upsertFile hup
      simpa [zlibCompress] using this

/-! ## Claim C1 (corrected)

The round-trip `read(write(p, k)) == (p, k)` holds only for the blob
kind, whose codec is the identity.  For the other kinds the payload is
re-encoded through the variant codec — `write(p, k)` stores
`serialize(deserialize(p, k))` — and reading back returns
`deserialize(serialize(deserialize(p, k)))`, which differs from `p` in
general (and, with the KVLM codec's trailing-newline bug, on essentially
every well-formed commit/tag payload). -/

set_option maxRecDepth 100000 in
/-- C1 counterexample: for the byte payload `"a b\n\nm"` written as kind
`commit` into an empty repository, the write succeeds, reading back the
returned digest succeeds and yields the commit object re-parsed from the
re-serialized map — whose own serialized payload `"a b\n \n \n\nm"` is
not the original payload, so `read(write(p, k)) ≠ (p, k)`. -/
theorem c1_counterexample :
    Option.map (fun rs => GitrsObject.read rs.1 rs.2)
      (GitrsObject.deserialize_and_write repoEmpty c1Payload ObjectType.commit) =
      some (ROut.ok (GitrsObject.commitObject c1ReadMap)) ∧
    (GitrsObject.commitObject c1ReadMap).serializeBytes ≠ c1Payload := by
  constructor
  · decide
  · decide

/-- C1 amended: for every byte payload `p` and every starting repository,
if writing `p` as kind `blob` succeeds (the storage helper can create the
object file), then reading back the returned digest succeeds and yields a
blob object whose serialized payload is exactly `p`. -/
theorem c1_amended (repo : Repository) (p : Bytes) :
    match GitrsObject.deserialize_and_write repo p ObjectType.blob with
    | some (repo', sha) =>
      ∃ obj, GitrsObject.read repo' sha = ROut.ok obj ∧
        obj.get_type = ObjectType.blob ∧ obj.serializeBytes = p
    | none => True := by
  show (match GitrsObject.write repo (GitrsObject.blobObject p) with
    | some (repo', sha) =>
      ∃ obj, GitrsObject.read repo' sha = ROut.ok obj ∧
        obj.get_type = ObjectType.blob ∧ obj.serializeBytes = p
    | none => True)
  cases hw : GitrsObject.write repo (GitrsObject.blobObject p) with
  | none => trivial
  | some pr =>
    obtain ⟨repo', sha⟩ := pr
    have hread := read_after_write _ _ _ _ hw
    exact ⟨GitrsObject.blobObject p, by rw [hread]; rfl, rfl, rfl⟩

/-! ## Claim C2 (code bug)

`Kvlm::parse` takes the value slice as the inclusive range
`raw_data[space_idx + 1..=end]`, where `end` is the index of the
terminating newline — so every parsed value retains its trailing `\n`,
and `Kvlm::serialize` then re-encodes that newline as a continuation
(`"\n "`) and appends another newline.  The round-trip laws of the
specification fail on every input with at least one header line. -/

/-- C2: the KVLM round-trip law `serialize(parse(x)) == x` fails on the
well-formed input `"a b\n\nm"` (one header line `a b`, a blank line, and
message body `m`, with no duplicate keys at all): the parsed value of key
`a` is `"b\n"` (not `"b"`), and re-serializing yields `"a b\n \n\nm"`.
The companion law `parse(serialize(m)) == m` fails on the same map. -/
theorem c2_kvlm_roundtrip_fails :
    Kvlm.parse c2Raw = some [(some (bytesOf "a"), [bytesOf "b\n"]), (none, [bytesOf "m"])] ∧
    Kvlm.serialize [(some (bytesOf "a"), [bytesOf "b\n"]), (none, [bytesOf "m"])] =
      bytesOf "a b\n \n\nm" ∧
    bytesOf "a b\n \n\nm" ≠ c2Raw := by
  decide

/-! ## Claim C3 (code bug)

`Tree::serialize` writes each record's hash as its *string* bytes — 40
bytes for the hex digests every other part of the system produces —
while `Leaf::parse` reads exactly 20 raw bytes after the NUL.  The codec
pair therefore does not round-trip: deserializing the serializer's
output consumes only half of a hex digest and then panics looking for a
space in the remaining hex characters. -/

/-- C3: deserializing the bytes produced by the tree serializer does not
recover the entries.  For the single record `c3Leaf` (mode `100644`,
path `a`, 40-hex-character digest), `serialize` emits the digest as 40
bytes, and `deserialize` of that output panics (`none`) instead of
yielding the entry list. -/
theorem c3_tree_roundtrip_panics :
    Tree.serialize [c3Leaf] = bytesOf "100644 a" ++ 0 :: c3Leaf.hash ∧
    Tree.deserialize (Tree.serialize [c3Leaf]) = none := by
  decide

/-! ## Claim C4 (code bug)

A tree's digest references survive neither direction of storage.  The
tree object the program builds carries the blob's digest as its
40-character hex string; storing it through `GitrsObject::write` and
reading it back panics, because `Leaf::parse` consumes only 20 raw bytes
of the written digest and then fails to find a mode/path split in the
remaining 20 hex characters.  And when the stored tree instead holds the
20 raw digest bytes `Leaf::parse` expects, the parsed entry's hash is
`String::from_utf8_lossy` of raw bytes — never the 40-hex-character
string `GitrsObject::read` needs to locate `objects/<2>/<38>` — so
`Tree::checkout` fails to read the referenced blob and errors out.
Either way no `hello.txt` is produced. -/

set_option maxRecDepth 100000 in
/-- C4: in the repository holding the blob `b"hi"` under the digest of
forty `a`s and the raw-digest tree under a digest of forty `b`s: the
blob and the raw-digest tree each read back fine individually — but
writing the program's own tree object (digest as hex string) and reading
it back panics, and checking out the parsed tree entry fails for every
recursion fuel: the entry's lossy-decoded hash misses the object store,
so checkout never terminates successfully, and no `hello.txt` with
content `hi` is produced. -/
theorem c4_checkout_fails :
    GitrsObject.read repoC4 (List.replicate 40 97) =
      ROut.ok (GitrsObject.blobObject (bytesOf "hi")) ∧
    GitrsObject.read repoC4 (List.replicate 40 98) =
      ROut.ok (GitrsObject.treeObject [c4Leaf c4H]) ∧
    Option.map (fun rs => GitrsObject.read rs.1 rs.2)
      (GitrsObject.write repoC4 (GitrsObject.treeObject [c4StoredLeaf])) =
      some ROut.panicked ∧
    ∀ fuel, (Tree.checkout repoC4 [c4Leaf c4H] [] fuel).isOk = false := by
  refine ⟨by decide, by decide, by decide, ?_⟩
  intro fuel
  cases fuel with
  | zero => decide
  | succ f =>
    have hread : GitrsObject.read repoC4 (c4Leaf c4H).hash =
        ROut.err RErr.notFound := by decide
    show (Tree.checkoutFold repoC4 (Tree.checkoutLevel repoC4 f) []
      [c4Leaf c4H]).isOk = false
    simp only [Tree.checkoutFold, hread]
    rfl

/-! ## Claim C5 (code bug)

`GitrsObject::resolve` treats *every* all-hex-digit name as a digest
prefix — the match arm has no length guard — and then slices
`&name[..2]`, which panics for a 1-character name.  The specification
requires a length of at least 2 for the digest-prefix interpretation and
states that core operations do not panic on expected-absent input. -/

/-- C5: for the all-hex name `"a"` (length 1), name resolution panics on
the byte slice `&name[..2]` in every repository, instead of looking the
name up as a tag/branch/remote reference and returning NotFound. -/
theorem c5_short_hex_name_panics (repo : Repository) (fuel : Nat) :
    GitrsObject.resolve repo (bytesOf "a") fuel = ROut.panicked ∧
    GitrsObject.find repo (bytesOf "a") none fuel = ROut.panicked := by
  have h1 : GitrsObject.resolve repo (bytesOf "a") fuel = ROut.panicked := by
    unfold GitrsObject.resolve
    rw [if_neg (by decide), if_neg (by decide), if_pos (by decide), if_pos (by decide)]
  refine ⟨h1, ?_⟩
  unfold GitrsObject.find
  rw [h1]

/-! ## Claim C8 (corrected)

`IgnoreRules::matches_rules` returns the verdict of the *first* matching
rule in source order, and `glob::Pattern::matches` under the crate's
default options matches the full path with `*` also crossing `/`.  For
the table with `*.log` (Exclude) before `!keep.log` (Include) at `a/b`,
the pattern `*.log` already matches `a/b/keep.log`, so the check returns
Exclude — not Include as the claim (and the spec's example) states.  The
other two parts of the claim hold. -/

/-- C8 counterexample: with the rule set `*.log` (Exclude) then
`!keep.log` (Include) at directory `a/b` — exactly the parses of those
two lines — `check("a/b/keep.log")` does not return Include. -/
theorem c8_counterexample :
    IgnoreRule.parse (bytesOf "*.log") = some c8Rule1 ∧
    IgnoreRule.parse (bytesOf "!keep.log") = some c8Rule2 ∧
    IgnoreRules.check c8Table (bytesOf "a/b/keep.log") ≠ some MatchKind.Include := by
  decide

/-- C8 amended: `check("a/b/keep.log")` returns Exclude (the first
matching rule in source order wins, and `*.log` matches the full path
since `*` also matches `/`); `check("a/b/x.log")` returns Exclude; and a
path under `a/b/c`, which has no rule set of its own, falls back to
`a/b`'s rules (Exclude). -/
theorem c8_amended :
    IgnoreRules.check c8Table (bytesOf "a/b/keep.log") = some MatchKind.Exclude ∧
    IgnoreRules.check c8Table (bytesOf "a/b/x.log") = some MatchKind.Exclude ∧
    IgnoreRules.tableGet c8Table (bytesOf "a/b/c") = none ∧
    IgnoreRules.check c8Table (bytesOf "a/b/c/x.log") = some MatchKind.Exclude := by
  decide

/-! ## Claim C9 (corrected), counterexample

`Ref::list_at_dir` visits the sorted entries of each level in order and
recurses into a subdirectory *at its position in that order* — not after
the level's files — and records names as the slash-join starting from
the listed directory's own path components, not relative to it. -/

/-- C9 counterexample: listing `refs` containing subdirectory `a` (with
file `x` holding `D1`) and file `b` (holding `D2`) produces
`[(refs/a/x, D1), (refs/b, D2)]` — the subdirectory's contents come
first (lexicographic position of `a` before `b`) and the names include
the `refs` prefix — not `[(b, D2), (a/x, D1)]` as the claim's
files-first, starting-directory-relative reading predicts. -/
theorem c9_counterexample :
    Ref.list_at repoC9 5 [bytesOf "refs"] =
      ROut.ok [(bytesOf "refs/a/x", bytesOf "D1"), (bytesOf "refs/b", bytesOf "D2")] ∧
    Ref.list_at repoC9 5 [bytesOf "refs"] ≠
      ROut.ok [(bytesOf "b", bytesOf "D2"), (bytesOf "a/x", bytesOf "D1")] := by
  decide

/-! ## Claim C7 (corrected), counterexample

`hex::decode` accepts upper-case hex digits but `hex::encode` always
emits lower-case, so an index entry whose digest contains upper-case
characters round-trips to the lower-case digest — not an identical
entry.  (The index round-trip does hold for lower-case digests; see the
amended theorem.) -/

/-- C7 counterexample: an entry whose 40-hex-character digest uses
upper-case letters (a valid hex digest accepted by serialization)
round-trips to a different entry — the same digest in lower-case. -/
theorem c7_counterexample :
    (Index.writeBytes [c7EntryUpper]).bind Index.readBytes =
      some (2, [{ c7EntryUpper with sha := bytesOf "0123456789abcdef0123456789abcdef01234567" }]) ∧
    ({ c7EntryUpper with sha := bytesOf "0123456789abcdef0123456789abcdef01234567" } : IndexEntry) ≠
      c7EntryUpper := by
  decide

/-! ## Helper lemmas: the index entry codec

One entry-level round-trip lemma serves both the amended C7 (whole-index
round-trip for lower-case digests) and C10 (the mirror behaviour of a
pre-epoch modification time). -/

theorem take_from_to_bytes (e : IndexEntry) (raw : Bytes) (tail : Bytes)
    (hraw : hexDecode e.sha = some raw) (hrl : raw.length = 20)
    (hpath : isValidUtf8 e.path = true) (hplen : e.path.length < 65536)
    (hm : e.mtime.natAbs < 18446744073709551616)
    (hs : e.size_in_bytes < 18446744073709551616)
    {bs : Bytes} (hbs : e.to_bytes = some bs) :
    IndexEntry.take_from (bs ++ tail) =
      some ({ mtime := (e.mtime.natAbs : Int), sha := hexEncode raw,
              size_in_bytes := e.size_in_bytes, path := e.path }, tail) := by
  have hlossy : utf8Lossy e.path = e.path := utf8Lossy_of_valid hpath
  simp only [IndexEntry.to_bytes, hraw, hlossy, IndexEntry.system_time_to_secs] at hbs
  rw [if_pos hrl, if_pos hplen] at hbs
  simp only [Option.some.injEq] at hbs
  subst hbs
  have hA := toBytesBE_length 8 e.mtime.natAbs
  have hB := toBytesBE_length 8 e.size_in_bytes
  have hC := toBytesBE_length 2 e.path.length
  simp only [List.append_assoc]
  have htake8 : (toBytesBE 8 e.mtime.natAbs ++ (raw ++ (toBytesBE 8 e.size_in_bytes ++
      (toBytesBE 2 e.path.length ++ (e.path ++ tail))))).take 8 =
      toBytesBE 8 e.mtime.natAbs := List.take_left' hA
  have hdrop8 : (toBytesBE 8 e.mtime.natAbs ++ (raw ++ (toBytesBE 8 e.size_in_bytes ++
      (toBytesBE 2 e.path.length ++ (e.path ++ tail))))).drop 8 =
      raw ++ (toBytesBE 8 e.size_in_bytes ++
        (toBytesBE 2 e.path.length ++ (e.path ++ tail))) := List.drop_left' hA
  have htake20 : (raw ++ (toBytesBE 8 e.size_in_bytes ++
      (toBytesBE 2 e.path.length ++ (e.path ++ tail)))).take 20 = raw :=
    List.take_left' hrl
  have hdrop20 : (raw ++ (toBytesBE 8 e.size_in_bytes ++
      (toBytesBE 2 e.path.length ++ (e.path ++ tail)))).drop 20 =
      toBytesBE 8 e.size_in_bytes ++ (toBytesBE 2 e.path.length ++ (e.path ++ tail)) :=
    List.drop_left' hrl
  have htakeB : (toBytesBE 8 e.size_in_bytes ++
      (toBytesBE 2 e.path.length ++ (e.path ++ tail))).take 8 =
      toBytesBE 8 e.size_in_bytes := List.take_left' hB
  have hdropB : (toBytesBE 8 e.size_in_bytes ++
      (toBytesBE 2 e.path.length ++ (e.path ++ tail))).drop 8 =
      toBytesBE 2 e.path.length ++ (e.path ++ tail) := List.drop_left' hB
  have htakeC : (toBytesBE 2 e.path.length ++ (e.path ++ tail)).take 2 =
      toBytesBE 2 e.path.length := List.take_left' hC
  have hdropC : (toBytesBE 2 e.path.length ++ (e.path ++ tail)).drop 2 =
      e.path ++ tail := List.drop_left' hC
  have htakeP : (e.path ++ tail).take e.path.length = e.path := List.take_left' rfl
  have hdropP : (e.path ++ tail).drop e.path.length = tail := List.drop_left' rfl
  have hfromA : fromBytesBE (toBytesBE 8 e.mtime.natAbs) = e.mtime.natAbs :=
    fromBytesBE_toBytesBE (by norm_num; exact hm)
  have hfromB : fromBytesBE (toBytesBE 8 e.size_in_bytes) = e.size_in_bytes :=
    fromBytesBE_toBytesBE (by norm_num; exact hs)
  have hfromC : fromBytesBE (toBytesBE 2 e.path.length) = e.path.length :=
    fromBytesBE_toBytesBE (by norm_num; exact hplen)
  have hlen : ¬ ((toBytesBE 8 e.mtime.natAbs ++ (raw ++ (toBytesBE 8 e.size_in_bytes ++
      (toBytesBE 2 e.path.length ++ (e.path ++ tail))))).length < 8 + 20 + 8 + 2) := by
    simp only [List.length_append, hA, hrl, hB, hC]
    omega
  have hplt : ¬ ((e.path ++ tail).length < e.path.length) := by
    simp only [List.length_append]
    omega
  simp only [IndexEntry.take_from, htake8, hdrop8, htake20, hdrop20, htakeB, hdropB,
    htakeC, hdropC, htakeP, hdropP, hfromA, hfromB, hfromC,
    IndexEntry.secs_to_system_time]
  rw [if_neg hlen, if_neg hplt, if_pos hpath]

theorem to_bytes_shape (e : IndexEntry) (raw : Bytes)
    (hraw : hexDecode e.sha = some raw) (hrl : raw.length = 20)
    (hpath : isValidUtf8 e.path = true) (hplen : e.path.length < 65536) :
    e.to_bytes = some (toBytesBE 8 e.mtime.natAbs ++ raw ++
      toBytesBE 8 e.size_in_bytes ++ toBytesBE 2 e.path.length ++ e.path) := by
  simp only [IndexEntry.to_bytes, hraw, utf8Lossy_of_valid hpath,
    IndexEntry.system_time_to_secs]
  rw [if_pos hrl, if_pos hplen]

theorem to_bytes_of_lower (e : IndexEntry)
    (hsha : e.sha.length = 40) (hlow : ∀ b ∈ e.sha, isLowerHexDigit b = true)
    (hpath : isValidUtf8 e.path = true) (hplen : e.path.length < 65536) :
    ∃ raw, hexDecode e.sha = some raw ∧ raw.length = 20 ∧ hexEncode raw = e.sha ∧
      e.to_bytes = some (toBytesBE 8 e.mtime.natAbs ++ raw ++
        toBytesBE 8 e.size_in_bytes ++ toBytesBE 2 e.path.length ++ e.path) := by
  obtain ⟨raw, hraw, hrl, henc⟩ := hexDecode_lower e.sha hlow (by omega)
  have hrl20 : raw.length = 20 := by omega
  exact ⟨raw, hraw, hrl20, henc, to_bytes_shape e raw hraw hrl20 hpath hplen⟩

theorem readEntriesGo_flatten : ∀ (entries : List IndexEntry),
    (∀ e ∈ entries, e.sha.length = 40 ∧ (∀ b ∈ e.sha, isLowerHexDigit b = true) ∧
      isValidUtf8 e.path = true ∧ e.path.length < 65536 ∧ 0 ≤ e.mtime ∧
      e.mtime.natAbs < 18446744073709551616 ∧
      e.size_in_bytes < 18446744073709551616) →
    ∃ chunks, entries.mapM IndexEntry.to_bytes = some chunks ∧
      ∀ acc, Index.readEntriesGo entries.length chunks.flatten acc =
        some (acc ++ entries) := by
  intro entries
  induction entries with
  | nil =>
    intro _
    exact ⟨[], rfl, fun acc => by simp [Index.readEntriesGo]⟩
  | cons e es ih =>
    intro hok
    obtain ⟨hsha, hlow, hpath, hplen, hm0, hm, hs⟩ := hok e (by simp)
    obtain ⟨raw, hraw, hrl, henc, hbse0⟩ := to_bytes_of_lower e hsha hlow hpath hplen
    obtain ⟨bse, hbse⟩ : ∃ bse, e.to_bytes = some bse := ⟨_, hbse0⟩
    obtain ⟨chunks, hchunks, hread⟩ := ih (fun x hx => hok x (by simp [hx]))
    refine ⟨bse :: chunks, ?_, ?_⟩
    · rw [List.mapM_cons, hbse, hchunks]
      rfl
    · intro acc
      have htf := take_from_to_bytes e raw chunks.flatten hraw hrl hpath hplen hm hs hbse
      have hentry : IndexEntry.mk (e.mtime.natAbs : Int) (hexEncode raw)
          e.size_in_bytes e.path = e := by
        have hm' : ((e.mtime.natAbs : Int)) = e.mtime := by omega
        rw [hm', henc]
      rw [hentry] at htf
      simp only [List.length_cons, List.flatten_cons, Index.readEntriesGo, htf]
      rw [hread (acc ++ [e])]
      simp

/-! ## Claim C7 (corrected), amended theorem

With the digest restricted to lower-case hex (see the counterexample for
the upper-case divergence), the path valid UTF-8 and below the `u16`
length bound, the entry count below `2^32` and the numeric fields below
`2^64`, the index round-trip holds exactly. -/

/-- C7 amended: for every index whose entries each carry a 40-character
lower-case-hex digest, a valid-UTF-8 path of fewer than 65536 bytes, a
whole-second modification time at or after the epoch (below `2^64`
seconds) and a size below `2^64`, and which has fewer than `2^32`
entries, writing the index and reading it back yields version 2 and
exactly the same entries, in order. -/
theorem c7_amended (entries : List IndexEntry)
    (hn : entries.length < 4294967296)
    (hok : ∀ e ∈ entries, e.sha.length = 40 ∧
      (∀ b ∈ e.sha, isLowerHexDigit b = true) ∧
      isValidUtf8 e.path = true ∧ e.path.length < 65536 ∧ 0 ≤ e.mtime ∧
      e.mtime.natAbs < 18446744073709551616 ∧
      e.size_in_bytes < 18446744073709551616) :
    ∃ bs, Index.writeBytes entries = some bs ∧
      Index.readBytes bs = some (2, entries) := by
  obtain ⟨chunks, hchunks, hread⟩ := readEntriesGo_flatten entries hok
  have hw : Index.writeBytes entries = some (bytesOf "DIRC" ++ toBytesBE 4 2 ++
      toBytesBE 4 entries.length ++ chunks.flatten) := by
    simp only [Index.writeBytes, hchunks]
  refine ⟨_, hw, ?_⟩
  have hD : (bytesOf "DIRC").length = 4 := by decide
  have hV : (toBytesBE 4 2).length = 4 := toBytesBE_length 4 2
  have hN := toBytesBE_length 4 entries.length
  simp only [List.append_assoc]
  have htakeD : (bytesOf "DIRC" ++ (toBytesBE 4 2 ++ (toBytesBE 4 entries.length ++
      chunks.flatten))).take 4 = bytesOf "DIRC" := List.take_left' hD
  have hdropD : (bytesOf "DIRC" ++ (toBytesBE 4 2 ++ (toBytesBE 4 entries.length ++
      chunks.flatten))).drop 4 =
      toBytesBE 4 2 ++ (toBytesBE 4 entries.length ++ chunks.flatten) :=
    List.drop_left' hD
  have htakeV : (toBytesBE 4 2 ++ (toBytesBE 4 entries.length ++
      chunks.flatten)).take 4 = toBytesBE 4 2 := List.take_left' hV
  have hdropV : (toBytesBE 4 2 ++ (toBytesBE 4 entries.length ++
      chunks.flatten)).drop 4 = toBytesBE 4 entries.length ++ chunks.flatten :=
    List.drop_left' hV
  have htakeN : (toBytesBE 4 entries.length ++ chunks.flatten).take 4 =
      toBytesBE 4 entries.length := List.take_left' hN
  have hdropN : (toBytesBE 4 entries.length ++ chunks.flatten).drop 4 =
      chunks.flatten := List.drop_left' hN
  have hfromV : fromBytesBE (toBytesBE 4 2) = 2 := by decide
  have hfromN : fromBytesBE (toBytesBE 4 entries.length) = entries.length :=
    fromBytesBE_toBytesBE (by norm_num; exact hn)
  have hlen : ¬ ((bytesOf "DIRC" ++ (toBytesBE 4 2 ++ (toBytesBE 4 entries.length ++
      chunks.flatten))).length < 12) := by
    simp only [List.length_append, hD, hV, hN]
    omega
  simp only [Index.readBytes, htakeD, hdropD, htakeV, hdropV, htakeN, hdropN,
    hfromV, hfromN]
  rw [if_neg hlen, if_neg (by simp), if_neg (by simp)]
  rw [hread []]
  simp

/-- C7 amended, witness: the single-entry index `[c7Entry]` (lower-case
digest, short ASCII path, positive mtime) round-trips exactly. -/
theorem c7_amended_witness :
    ∃ bs, Index.writeBytes [c7Entry] = some bs ∧
      Index.readBytes bs = some (2, [c7Entry]) :=
  c7_amended [c7Entry] (by decide) (by decide)

/-! ## Claim C10 (confirmed)

`IndexEntry::system_time_to_secs` encodes a pre-epoch time as the
magnitude of its distance to the epoch
(`unwrap_or_else(|e| Duration::from_secs(0) + e.duration())`), so
serialization never fails on such a time, and deserialization returns
the mirrored post-epoch time; the round-trip preserves the time exactly
when — and only when — it is at or after the epoch. -/

/-- C10: under the serializability bounds (a decodable 20-byte digest, a
valid-UTF-8 path below the `u16` bound, magnitudes below `2^64`),
serializing an entry succeeds for every modification time — including
times before the epoch — and deserializing yields an entry whose
modification time is the magnitude `|t|` of the original time `t`
mirrored to after the epoch; that equals the original exactly when `t`
is at or after the epoch. -/
theorem c10_pre_epoch_mirrors (e : IndexEntry) (raw : Bytes)
    (hraw : hexDecode e.sha = some raw) (hrl : raw.length = 20)
    (hpath : isValidUtf8 e.path = true) (hplen : e.path.length < 65536)
    (hm : e.mtime.natAbs < 18446744073709551616)
    (hs : e.size_in_bytes < 18446744073709551616) :
    ∃ bs e', e.to_bytes = some bs ∧
      IndexEntry.take_from bs = some (e', []) ∧
      e'.mtime = (e.mtime.natAbs : Int) ∧ (e'.mtime = e.mtime ↔ 0 ≤ e.mtime) := by
  have hto := to_bytes_shape e raw hraw hrl hpath hplen
  have htf := take_from_to_bytes e raw [] hraw hrl hpath hplen hm hs hto
  rw [List.append_nil] at htf
  refine ⟨_, _, hto, htf, rfl, ?_⟩
  show ((e.mtime.natAbs : Int) = e.mtime) ↔ 0 ≤ e.mtime
  omega

/-- C10 witness: the concrete entry `c10Entry`, whose modification time
is five seconds before the epoch, serializes fine and round-trips to the
mirrored time five seconds after the epoch. -/
theorem c10_pre_epoch_mirrors_witness :
    ∃ bs e', c10Entry.to_bytes = some bs ∧
      IndexEntry.take_from bs = some (e', []) ∧
      e'.mtime = (c10Entry.mtime.natAbs : Int) ∧
      (e'.mtime = c10Entry.mtime ↔ 0 ≤ c10Entry.mtime) :=
  c10_pre_epoch_mirrors c10Entry c10Raw (by decide) (by decide) (by decide)
    (by decide) (by decide) (by decide)

/-! ## Helper lemmas: directory entries, digest prefixes, and trimming -/

theorem findEntry_some_mem {n : Bytes} {v : FsNode} :
    ∀ {es : FsEntries}, findEntry n es = some v → (n, v) ∈ es := by
  intro es
  induction es with
  | nil => intro h; simp [findEntry] at h
  | cons e rest ih =>
    obtain ⟨k, w⟩ := e
    intro h
    simp only [findEntry] at h
    by_cases hk : n = k
    · rw [if_pos hk] at h
      injection h with h
      subst hk
      subst h
      simp
    · rw [if_neg hk] at h
      exact List.mem_cons_of_mem _ (ih h)

theorem filter_eq_nil_of (p : Bytes → Bool) :
    ∀ (l : List Bytes), (∀ a ∈ l, p a = false) → l.filter p = [] := by
  intro l
  induction l with
  | nil => intro _; rfl
  | cons a rest ih =>
    intro h
    simp only [List.filter_cons, h a (by simp)]
    exact ih (fun x hx => h x (by simp [hx]))

theorem isPrefixOf_append_same (k b d : Bytes) :
    (k ++ b).isPrefixOf (k ++ d) = b.isPrefixOf d := by
  induction k with
  | nil => rfl
  | cons x xs ih => simp [List.isPrefixOf, ih]

theorem isPrefixOf_append_ne : ∀ (a c : Bytes), a.length = c.length → a ≠ c →
    ∀ b d, (a ++ b).isPrefixOf (c ++ d) = false := by
  intro a
  induction a with
  | nil =>
    intro c hlen hne b d
    cases c with
    | nil => exact absurd rfl hne
    | cons y ys => simp at hlen
  | cons x xs ih =>
    intro c hlen hne b d
    cases c with
    | nil => simp at hlen
    | cons y ys =>
      by_cases hxy : x = y
      · subst hxy
        have hne' : xs ≠ ys := fun h => hne (by rw [h])
        simp only [List.cons_append, List.isPrefixOf, List.append_eq]
        rw [ih ys (by simpa using hlen) hne' b d]
        simp
      · simp only [List.cons_append, List.isPrefixOf, List.append_eq]
        have hb : (x == y) = false := beq_eq_false_iff_ne.mpr hxy
        rw [hb]
        simp

theorem cands_eq (dirName pfx : Bytes) : ∀ (es2 : FsEntries),
    (∀ f ∈ es2, utf8Lossy f.1 = f.1) →
    es2.filterMap (fun f =>
      if pfx.isPrefixOf (utf8Lossy f.1) then some (dirName ++ utf8Lossy f.1) else none) =
    (es2.map (fun f => dirName ++ f.1)).filter
      (fun d => (dirName ++ pfx).isPrefixOf d) := by
  intro es2
  induction es2 with
  | nil => intro _; rfl
  | cons f fs ih =>
    intro hal
    have hf : utf8Lossy f.1 = f.1 := hal f (by simp)
    have ih' := ih (fun x hx => hal x (by simp [hx]))
    simp only [List.filterMap_cons, List.map_cons, List.filter_cons, hf,
      isPrefixOf_append_same]
    cases hp : pfx.isPrefixOf f.1
    · rw [if_neg (by simp), if_neg (by simp)]
      exact ih'
    · rw [if_pos rfl, if_pos rfl]
      rw [ih']

theorem storedDigests_filter_none (dirName pfx : Bytes) (hd2 : dirName.length = 2) :
    ∀ (es : FsEntries), (∀ p ∈ es, (p.1 : Bytes).length = 2) →
    findEntry dirName es = none →
    (es.flatMap (fun e =>
      match e.2 with
      | FsNode.dir es2 => es2.map (fun f => e.1 ++ f.1)
      | FsNode.file _ => [])).filter (fun d => (dirName ++ pfx).isPrefixOf d) = [] := by
  intro es
  induction es with
  | nil => intro _ _; rfl
  | cons e rest ih =>
    intro hkeys hfind
    obtain ⟨k, nd⟩ := e
    simp only [findEntry] at hfind
    by_cases hk : dirName = k
    · rw [if_pos hk] at hfind; exact Option.noConfusion hfind
    · rw [if_neg hk] at hfind
      have hk2 : k.length = 2 := hkeys (k, nd) (by simp)
      simp only [List.flatMap_cons, List.filter_append]
      rw [filter_eq_nil_of _ _ ?hh, ih (fun p hp => hkeys p (by simp [hp])) hfind]
      · rfl
      case hh =>
        cases nd with
        | file c => intro d hd; simp at hd
        | dir es2 =>
          intro d hd
          simp only [List.mem_map] at hd
          obtain ⟨f, hf, rfl⟩ := hd
          exact isPrefixOf_append_ne dirName k (by omega) hk pfx f.1

theorem storedDigests_filter_found (dirName pfx : Bytes) (hd2 : dirName.length = 2) :
    ∀ (es : FsEntries) (es2 : FsEntries),
    nodupKeys es = true →
    (∀ p ∈ es, (p.1 : Bytes).length = 2) →
    findEntry dirName es = some (FsNode.dir es2) →
    (es.flatMap (fun e =>
      match e.2 with
      | FsNode.dir es2 => es2.map (fun f => e.1 ++ f.1)
      | FsNode.file _ => [])).filter (fun d => (dirName ++ pfx).isPrefixOf d) =
    (es2.map (fun f => dirName ++ f.1)).filter
      (fun d => (dirName ++ pfx).isPrefixOf d) := by
  intro es
  induction es with
  | nil => intro es2 _ _ h; simp [findEntry] at h
  | cons e rest ih =>
    intro es2 hnd hkeys hfind
    obtain ⟨k, nd⟩ := e
    simp only [findEntry] at hfind
    simp only [nodupKeys, Bool.and_eq_true] at hnd
    obtain ⟨hnk, hnd'⟩ := hnd
    by_cases hk : dirName = k
    · rw [if_pos hk] at hfind
      injection hfind with hfind
      subst hfind
      subst hk
      have hrest0 : findEntry dirName rest = none := by
        rcases hfe : findEntry dirName rest with _ | v
        · rfl
        · rw [hfe] at hnk; simp at hnk
      simp only [List.flatMap_cons, List.filter_append]
      rw [storedDigests_filter_none dirName pfx hd2 rest
        (fun p hp => hkeys p (by simp [hp])) hrest0, List.append_nil]
    · rw [if_neg hk] at hfind
      have hk2 : k.length = 2 := hkeys (k, nd) (by simp)
      simp only [List.flatMap_cons, List.filter_append]
      rw [filter_eq_nil_of _ _ ?hh,
        ih es2 hnd' (fun p hp => hkeys p (by simp [hp])) hfind]
      · rfl
      case hh =>
        cases nd with
        | file c => intro d hd; simp at hd
        | dir es2' =>
          intro d hd
          simp only [List.mem_map] at hd
          obtain ⟨f, hf, rfl⟩ := hd
          exact isPrefixOf_append_ne dirName k (by omega) hk pfx f.1

theorem dropWhile_eq_self_of (p : Nat → Bool) :
    ∀ (l : Bytes), (∀ b ∈ l, p b = false) → l.dropWhile p = l := by
  intro l h
  cases l with
  | nil => rfl
  | cons b rest => rw [List.dropWhile_cons_of_neg (by simp [h b (by simp)])]

theorem trimAscii_of_no_wsp {l : Bytes} (h : ∀ b ∈ l, isWspByte b = false) :
    trimAscii l = l := by
  unfold trimAscii
  rw [dropWhile_eq_self_of _ l h,
    dropWhile_eq_self_of _ l.reverse (fun b hb => h b (List.mem_reverse.mp hb)),
    List.reverse_reverse]

theorem isWspByte_false_of_hex {b : Nat} (h : isAsciiHexdigitByte b = true) :
    isWspByte b = false := by
  simp only [isAsciiHexdigitByte, Bool.or_eq_true, Bool.and_eq_true,
    decide_eq_true_eq] at h
  have hb : 48 ≤ b := by omega
  simp only [isWspByte]
  have h32 : (b == 32) = false := by
    simp only [beq_eq_false_iff_ne]
    omega
  have h913 : (decide (9 ≤ b) && decide (b ≤ 13)) = false := by
    have hn : ¬ (b ≤ 13) := by omega
    simp [hn]
  rw [h32, h913]
  rfl

theorem asciiLowercase_split (name : Bytes) :
    asciiLowercase name =
      asciiLowercase (name.take 2) ++ asciiLowercase (name.drop 2) := by
  conv_lhs => rw [← List.take_append_drop 2 name]
  simp only [asciiLowercase, List.map_append]

/-! ## Claim C6 (confirmed)

For a digest-prefix name (all hex digits, length at least 2),
`GitrsObject::resolve` lists the stored objects whose digest starts with
the lower-cased name — the entries of `objects/<2>` filtered by the
remaining characters — and `GitrsObject::find` maps zero candidates to
NotFound, one candidate to that digest, and several to the Ambiguous
error carrying all of them. -/

/-- C6: in a well-formed repository, for every all-hex name of length at
least 2, `find` (with no refinement options) returns NotFound when no
stored object's digest has the lower-cased name as a prefix, the unique
matching digest when exactly one does, and the Ambiguous error listing
all matching digests when several do. -/
theorem c6_digest_prefix (repo : Repository) (name : Bytes) (fuel : Nat)
    (hwf : wfObjects repo = true)
    (hhex : name.all isAsciiHexdigitByte = true)
    (hlen : 2 ≤ name.length) :
    GitrsObject.find repo name none fuel =
      match (storedObjectDigests repo).filter
          (fun d => (asciiLowercase name).isPrefixOf d) with
      | [] => ROut.err RErr.notFound
      | [d] => ROut.ok d
      | ds => ROut.err (RErr.ambiguous ds) := by
  have hhex' : ∀ b ∈ name, isAsciiHexdigitByte b = true := List.all_eq_true.mp hhex
  have htrim : trimAscii name = name :=
    trimAscii_of_no_wsp (fun b hb => isWspByte_false_of_hex (hhex' b hb))
  have hne : ¬ (trimAscii name = []) := by
    rw [htrim]
    intro h
    rw [h] at hlen
    simp at hlen
  have hnh : ¬ (name = bytesOf "HEAD") := by
    intro h
    subst h
    exact absurd hhex (by decide)
  have hnl : ¬ (name.length < 2) := by omega
  have hd2 : (asciiLowercase (name.take 2)).length = 2 := by
    simp only [asciiLowercase, List.length_map, List.length_take]
    omega
  have hsplit : asciiLowercase name =
      asciiLowercase (name.take 2) ++ asciiLowercase (name.drop 2) :=
    asciiLowercase_split name
  have hres0 : GitrsObject.resolve repo name fuel =
      (match repo.readDirAt [bytesOf "objects", asciiLowercase (name.take 2)] with
       | ROut.panicked => ROut.panicked
       | ROut.err _ => ROut.err RErr.notFound
       | ROut.ok entries =>
         ROut.ok (entries.filterMap (fun e =>
           if (asciiLowercase (name.drop 2)).isPrefixOf (utf8Lossy e.1) then
             some (asciiLowercase (name.take 2) ++ utf8Lossy e.1)
           else none))) := by
    unfold GitrsObject.resolve
    rw [if_neg hne, if_neg hnh, hhex, if_pos rfl, if_neg hnl]
  cases hobj : findEntry (bytesOf "objects") repo.gitdir with
  | none =>
    have hstored : storedObjectDigests repo = [] := by
      simp only [storedObjectDigests, hobj]
    have hdir0 : repo.readDirAt [bytesOf "objects", asciiLowercase (name.take 2)] =
        ROut.err RErr.notFound := by
      simp only [Repository.readDirAt, walkNode, hobj]
    unfold GitrsObject.find
    rw [hres0, hdir0, hstored]
    rfl
  | some nd =>
    cases nd with
    | file c =>
      exfalso
      unfold wfObjects at hwf
      rw [hobj] at hwf
      simp at hwf
    | dir es =>
      unfold wfObjects at hwf
      rw [hobj, Bool.and_eq_true] at hwf
      obtain ⟨hnd, hall⟩ := hwf
      have hall' := List.all_eq_true.mp hall
      have hkeys : ∀ p ∈ es, (p.1 : Bytes).length = 2 := by
        intro p hp
        have hthis := hall' p hp
        simp only [Bool.and_eq_true, decide_eq_true_eq] at hthis
        exact hthis.1.1
      cases hfe : findEntry (asciiLowercase (name.take 2)) es with
      | none =>
        have hdir0 : repo.readDirAt
            [bytesOf "objects", asciiLowercase (name.take 2)] =
            ROut.err RErr.notFound := by
          simp only [Repository.readDirAt, walkNode, hobj, hfe]
        have hrhs : (storedObjectDigests repo).filter
            (fun d => (asciiLowercase name).isPrefixOf d) = [] := by
          simp only [storedObjectDigests, hobj, hsplit]
          exact storedDigests_filter_none (asciiLowercase (name.take 2))
            (asciiLowercase (name.drop 2)) hd2 es hkeys hfe
        unfold GitrsObject.find
        rw [hres0, hdir0, hrhs]
      | some nd2 =>
        cases nd2 with
        | file c =>
          exfalso
          have hmem := findEntry_some_mem hfe
          have hthis := hall' _ hmem
          simp at hthis
        | dir es2 =>
          have hdirok : repo.readDirAt
              [bytesOf "objects", asciiLowercase (name.take 2)] = ROut.ok es2 := by
            simp only [Repository.readDirAt, walkNode, hobj, hfe]
          have hmem := findEntry_some_mem hfe
          have h3 := hall' _ hmem
          simp only [Bool.and_eq_true, decide_eq_true_eq] at h3
          obtain ⟨-, h38⟩ := h3
          have h38' := List.all_eq_true.mp h38
          have hlossyf : ∀ f ∈ es2, utf8Lossy f.1 = f.1 := by
            intro f hf
            have hthis := h38' f hf
            simp only [Bool.and_eq_true, decide_eq_true_eq] at hthis
            apply utf8Lossy_of_ascii
            intro b hb
            have hlb := List.all_eq_true.mp hthis.2 b hb
            simp only [isLowerHexDigit, Bool.or_eq_true, Bool.and_eq_true,
              decide_eq_true_eq] at hlb
            omega
          have hcs : es2.filterMap (fun e =>
              if (asciiLowercase (name.drop 2)).isPrefixOf (utf8Lossy e.1) then
                some (asciiLowercase (name.take 2) ++ utf8Lossy e.1)
              else none) =
              (storedObjectDigests repo).filter
                (fun d => (asciiLowercase name).isPrefixOf d) := by
            rw [cands_eq (asciiLowercase (name.take 2))
              (asciiLowercase (name.drop 2)) es2 hlossyf]
            simp only [storedObjectDigests, hobj, hsplit]
            exact (storedDigests_filter_found (asciiLowercase (name.take 2))
              (asciiLowercase (name.drop 2)) hd2 es es2 hnd hkeys hfe).symm
          have hresolve : GitrsObject.resolve repo name fuel =
              ROut.ok (es2.filterMap (fun e =>
                if (asciiLowercase (name.drop 2)).isPrefixOf (utf8Lossy e.1) then
                  some (asciiLowercase (name.take 2) ++ utf8Lossy e.1)
                else none)) := by
            rw [hres0, hdirok]
          unfold GitrsObject.find
          rw [hresolve, hcs]
          generalize (storedObjectDigests repo).filter
            (fun d => (asciiLowercase name).isPrefixOf d) = l
          rcases l with _ | ⟨a, _ | ⟨b, t⟩⟩ <;> rfl

/-- C6 witness: in `repoC6` (three stored objects, two sharing the
prefix `ab00`), the name `ab00` is resolved through the digest-prefix
arm and dispatched on its match count. -/
theorem c6_digest_prefix_witness :
    wfObjects repoC6 = true ∧
    GitrsObject.find repoC6 (bytesOf "ab00") none 0 =
      match (storedObjectDigests repoC6).filter
          (fun d => (asciiLowercase (bytesOf "ab00")).isPrefixOf d) with
      | [] => ROut.err RErr.notFound
      | [d] => ROut.ok d
      | ds => ROut.err (RErr.ambiguous ds) :=
  ⟨by decide, c6_digest_prefix repoC6 (bytesOf "ab00") 0 (by decide) (by decide)
    (by decide)⟩

/-! ## Helper lemmas: the reference listing -/

theorem mem_insertStable {α : Type} {le : α → α → Bool} {x a : α} :
    ∀ {l : List α}, x ∈ insertStable le a l ↔ x = a ∨ x ∈ l := by
  intro l
  induction l with
  | nil => simp [insertStable]
  | cons y ys ih =>
    simp only [insertStable]
    by_cases h : le y a = true
    · rw [if_pos h]
      simp only [List.mem_cons, ih]
      tauto
    · rw [if_neg h]
      simp only [List.mem_cons]

theorem mem_sortStable {α : Type} {le : α → α → Bool} {x : α} :
    ∀ {l : List α}, x ∈ sortStable le l ↔ x ∈ l := by
  have key : ∀ (l acc : List α),
      x ∈ l.foldl (fun acc y => insertStable le y acc) acc ↔ x ∈ acc ∨ x ∈ l := by
    intro l
    induction l with
    | nil => intro acc; simp
    | cons y ys ih =>
      intro acc
      simp only [List.foldl_cons]
      rw [ih]
      simp only [mem_insertStable, List.mem_cons]
      tauto
  intro l
  unfold sortStable
  rw [key]
  simp

theorem mem_findEntry_of_nodup {n : Bytes} {v : FsNode} :
    ∀ {es : FsEntries}, nodupKeys es = true → (n, v) ∈ es →
    findEntry n es = some v := by
  intro es
  induction es with
  | nil => intro _ h; simp at h
  | cons e0 rest ih =>
    obtain ⟨k, w⟩ := e0
    intro hnd hmem
    simp only [nodupKeys, Bool.and_eq_true] at hnd
    obtain ⟨hnf, hnd'⟩ := hnd
    rcases List.mem_cons.mp hmem with heq | hmem'
    · cases heq
      simp [findEntry]
    · have hf := ih hnd' hmem'
      by_cases hk : n = k
      · subst hk
        rw [hf] at hnf
        simp at hnf
      · simp only [findEntry, if_neg hk]
        exact hf

theorem plainRefsFold_nodup (okf : Bool) (recur : FsEntries → Bool) :
    ∀ (es : FsEntries), plainRefsFold okf recur es = true → nodupKeys es = true := by
  intro es
  induction es with
  | nil => intro _; rfl
  | cons e0 rest ih =>
    obtain ⟨n, nd⟩ := e0
    intro h
    cases nd with
    | file c =>
      simp only [plainRefsFold, Bool.and_eq_true] at h
      obtain ⟨⟨⟨⟨_, _⟩, hnf⟩, _⟩, hrest⟩ := h
      simp only [nodupKeys, Bool.and_eq_true]
      exact ⟨hnf, ih hrest⟩
    | dir es2 =>
      simp only [plainRefsFold, Bool.and_eq_true] at h
      obtain ⟨⟨⟨_, hnf⟩, _⟩, hrest⟩ := h
      simp only [nodupKeys, Bool.and_eq_true]
      exact ⟨hnf, ih hrest⟩

theorem plainRefsFold_facts (okf : Bool) (recur : FsEntries → Bool) :
    ∀ (es : FsEntries), plainRefsFold okf recur es = true →
    ∀ e ∈ es, (match e with
      | (n, FsNode.file c) =>
        okf = true ∧ isValidUtf8 n = true ∧ plainRefContent c = true
      | (n, FsNode.dir es2) => isValidUtf8 n = true ∧ recur es2 = true) := by
  intro es
  induction es with
  | nil => intro _ e he; simp at he
  | cons e0 rest ih =>
    obtain ⟨n, nd⟩ := e0
    intro h e he
    cases nd with
    | file c =>
      simp only [plainRefsFold, Bool.and_eq_true] at h
      obtain ⟨⟨⟨⟨hok, hv⟩, _⟩, hpc⟩, hrest⟩ := h
      rcases List.mem_cons.mp he with rfl | hmem
      · exact ⟨hok, hv, hpc⟩
      · exact ih hrest e hmem
    | dir es2 =>
      simp only [plainRefsFold, Bool.and_eq_true] at h
      obtain ⟨⟨⟨hv, _⟩, hrec⟩, hrest⟩ := h
      rcases List.mem_cons.mp he with rfl | hmem
      · exact ⟨hv, hrec⟩
      · exact ih hrest e hmem

theorem walk_snoc {n : Bytes} {v : FsNode} :
    ∀ (p : List Bytes) (node : FsNode) (es : FsEntries),
    walkNode node p = some (FsNode.dir es) → findEntry n es = some v →
    walkNode node (p ++ [n]) = some v := by
  intro p
  induction p with
  | nil =>
    intro node es hw hf
    simp only [walkNode] at hw
    injection hw with hw
    subst hw
    simp only [List.nil_append, walkNode, hf]
  | cons a as ih =>
    intro node es hw hf
    cases node with
    | file c0 => simp [walkNode] at hw
    | dir es0 =>
      simp only [walkNode] at hw
      cases hch : findEntry a es0 with
      | none =>
        simp only [hch] at hw
        exact Option.noConfusion hw
      | some child =>
        simp only [hch] at hw
        simp only [List.cons_append, walkNode, hch]
        exact ih child es hw hf

theorem readGo_walk {n c : Bytes} :
    ∀ (p : List Bytes) (node : FsNode) (es : FsEntries),
    walkNode node p = some (FsNode.dir es) →
    findEntry n es = some (FsNode.file c) →
    Repository.readFileAt.go node (p ++ [n]) = ROut.ok c := by
  intro p
  induction p with
  | nil =>
    intro node es hw hf
    simp only [walkNode] at hw
    injection hw with hw
    subst hw
    simp only [List.nil_append]
    rw [Repository.readFileAt.go.eq_def]
    simp only [hf]
  | cons a as ih =>
    intro node es hw hf
    cases node with
    | file c0 => simp [walkNode] at hw
    | dir es0 =>
      simp only [walkNode] at hw
      cases hch : findEntry a es0 with
      | none =>
        simp only [hch] at hw
        exact Option.noConfusion hw
      | some child =>
        simp only [hch] at hw
        cases child with
        | file c1 =>
          cases as with
          | nil => simp [walkNode] at hw
          | cons b bs => simp [walkNode] at hw
        | dir es1 =>
          cases as with
          | nil =>
            simp only [List.cons_append, List.nil_append]
            rw [Repository.readFileAt.go.eq_def]
            simp only [hch]
            exact ih (FsNode.dir es1) es hw hf
          | cons b bs =>
            simp only [List.cons_append]
            rw [Repository.readFileAt.go.eq_def]
            simp only [hch]
            exact ih (FsNode.dir es1) es hw hf

theorem readFileAt_append_file (repo : Repository) (p : List Bytes) {n c : Bytes}
    {es : FsEntries}
    (hwalk : walkNode (FsNode.dir repo.gitdir) p = some (FsNode.dir es))
    (hfind : findEntry n es = some (FsNode.file c)) :
    repo.readFileAt (p ++ [n]) = ROut.ok c := by
  have hgo := readGo_walk p (FsNode.dir repo.gitdir) es hwalk hfind
  cases p with
  | nil => exact hgo
  | cons a as => exact hgo

theorem resolve_plain (repo : Repository) (g : Nat) (refPath : List Bytes) (c : Bytes)
    (hread : repo.readFileAt refPath = ROut.ok c)
    (hpc : plainRefContent c = true) :
    Ref.resolve repo (g + 1) refPath = ROut.ok (plainRefValue c) := by
  simp only [plainRefContent, Bool.and_eq_true, Bool.not_eq_true'] at hpc
  obtain ⟨hv, hnp⟩ := hpc
  simp only [plainRefValue] at hv hnp
  simp only [Ref.resolve, hread]
  rw [if_pos hv, if_neg (by simp [hnp])]
  rfl

theorem listFold_plain (repo : Repository) (g : Nat) (path : List Bytes) :
    ∀ (l : FsEntries),
    (∀ n c, (n, FsNode.file c) ∈ l → utf8Lossy n = n ∧
      Ref.resolve repo g (path ++ [n]) = ROut.ok (plainRefValue c)) →
    (∀ n es2, (n, FsNode.dir es2) ∈ l → isValidUtf8 n = true ∧
      Ref.listLevel repo g (path ++ [n]) es2 =
        ROut.ok (specRefList g (path ++ [n]) es2)) →
    Ref.listFoldWith repo (Ref.listLevel repo g) g path l =
      ROut.ok (l.flatMap (fun e =>
        match e with
        | (n, FsNode.file c) => [(joinWith [47] (path ++ [n]), plainRefValue c)]
        | (n, FsNode.dir es2) => specRefList g (path ++ [n]) es2)) := by
  intro l
  induction l with
  | nil => intro _ _; rfl
  | cons e rest ih =>
    obtain ⟨n, nd⟩ := e
    intro hf hd
    have ih' := ih (fun n' c' h => hf n' c' (by simp [h]))
      (fun n' es2' h => hd n' es2' (by simp [h]))
    cases nd with
    | file c =>
      obtain ⟨hlossy, hres⟩ := hf n c (by simp)
      simp only [Ref.listFoldWith, hlossy, hres, ih']
      simp [List.flatMap_cons]
    | dir es2 =>
      obtain ⟨hvn, hlist⟩ := hd n es2 (by simp)
      simp only [Ref.listFoldWith]
      rw [if_pos hvn, hlist, ih']
      simp [List.flatMap_cons]

theorem listLevel_plain (repo : Repository) :
    ∀ (fuel : Nat) (path : List Bytes) (es : FsEntries),
    plainRefsLevel fuel es = true →
    walkNode (FsNode.dir repo.gitdir) path = some (FsNode.dir es) →
    Ref.listLevel repo fuel path es = ROut.ok (specRefList fuel path es) := by
  intro fuel
  induction fuel with
  | zero => intro path es h _; simp [plainRefsLevel] at h
  | succ g ih =>
    intro path es h hwalk
    simp only [plainRefsLevel] at h
    have hnd : nodupKeys es = true := plainRefsFold_nodup _ _ _ h
    have hfacts := plainRefsFold_facts _ _ _ h
    have hHf : ∀ n c, (n, FsNode.file c) ∈ Ref.sortEntries es → utf8Lossy n = n ∧
        Ref.resolve repo g (path ++ [n]) = ROut.ok (plainRefValue c) := by
      intro n c hmem
      have hmem' : (n, FsNode.file c) ∈ es := mem_sortStable.mp hmem
      obtain ⟨hok, hv, hpc⟩ := hfacts _ hmem'
      have hg : 1 ≤ g := of_decide_eq_true hok
      obtain ⟨g', rfl⟩ : ∃ g', g = g' + 1 := ⟨g - 1, by omega⟩
      have hfind := mem_findEntry_of_nodup hnd hmem'
      have hread := readFileAt_append_file repo path hwalk hfind
      exact ⟨utf8Lossy_of_valid hv, resolve_plain repo g' (path ++ [n]) c hread hpc⟩
    have hHd : ∀ n es2, (n, FsNode.dir es2) ∈ Ref.sortEntries es →
        isValidUtf8 n = true ∧ Ref.listLevel repo g (path ++ [n]) es2 =
          ROut.ok (specRefList g (path ++ [n]) es2) := by
      intro n es2 hmem
      have hmem' : (n, FsNode.dir es2) ∈ es := mem_sortStable.mp hmem
      obtain ⟨hv, hrec⟩ := hfacts _ hmem'
      have hfind := mem_findEntry_of_nodup hnd hmem'
      have hwalk2 := walk_snoc path (FsNode.dir repo.gitdir) es hwalk hfind
      exact ⟨hv, ih (path ++ [n]) es2 hrec hwalk2⟩
    show Ref.listFoldWith repo (Ref.listLevel repo g) g path (Ref.sortEntries es) =
      ROut.ok (specRefList (g + 1) path es)
    rw [listFold_plain repo g path (Ref.sortEntries es) hHf hHd]
    rfl

/-! ## Claim C9 (corrected), amended theorem

Over a plain reference directory (valid-UTF-8, per-level-distinct entry
names; files holding direct digests; nesting within the fuel),
`Ref::list_at_dir` equals the specification-side listing `specRefList`:
each level is visited in lexicographic filename order, a subdirectory is
recursed at its position in that order, and each file is recorded under
the slash-join of the listed directory's own path components and the
descent path. -/

/-- C9 amended: for a reference directory reachable at `path` whose
entries satisfy the plain-reference predicate at the listing fuel,
`Ref::list_at_dir` returns exactly the in-sorted-order listing
`specRefList` (subdirectories inline at their sorted position, names
joined from the listed directory's own path), and `Ref::list_at` its
`IndexMap` collection. -/
theorem c9_amended (repo : Repository) (fuel : Nat) (path : List Bytes)
    (es : FsEntries)
    (hplain : plainRefsLevel fuel es = true)
    (hwalk : walkNode (FsNode.dir repo.gitdir) path = some (FsNode.dir es)) :
    Ref.list_at_dir repo fuel path = ROut.ok (specRefList fuel path es) ∧
    Ref.list_at repo fuel path =
      ROut.ok (Ref.indexMapCollect (specRefList fuel path es)) := by
  have h1 : Ref.list_at_dir repo fuel path = ROut.ok (specRefList fuel path es) := by
    cases fuel with
    | zero => simp [plainRefsLevel] at hplain
    | succ g =>
      have hlv := listLevel_plain repo (g + 1) path es hplain hwalk
      unfold Ref.list_at_dir
      rw [hwalk]
      exact hlv
  refine ⟨h1, ?_⟩
  unfold Ref.list_at
  rw [h1]

/-- C9 amended, witness: listing `repoC9`'s `refs` directory (fuel 3)
produces exactly the specification-side listing of its entries. -/
theorem c9_amended_witness :
    plainRefsLevel 3 refsC9 = true ∧
    Ref.list_at_dir repoC9 3 [bytesOf "refs"] =
      ROut.ok (specRefList 3 [bytesOf "refs"] refsC9) :=
  ⟨by decide,
    (c9_amended repoC9 3 [bytesOf "refs"] refsC9 (by decide) rfl).1⟩

end Gitrs
